import Mathlib

/-!
Shallow embedding of the ComfyUI-ultimate-openpose-editor keypoint engine.

Source files embedded:
  * `body_part_definitions.py`   — body part catalog
  * `pose_filter_nodes.py`       — selector, filter, mover nodes
  * `pose_attach_node.py`        — attach node
  * `pose_merge_node.py`         — merge node
  * `pose_temporal_smoothing_node.py` — temporal smoothing node

Modelling conventions:
  * Python floats are modelled as exact rationals (`ℚ`).
  * A Python list access or assignment that can raise `IndexError`
    (or a modulo by zero) is modelled with `Option`: `none` is the raised
    exception, propagated outward.
  * A person dict field that is missing and a field that is present with
    value `None` are collapsed to a single `none` of `Option (List ℚ)`:
    every code path in the source treats the two identically (guard then
    no-op), so the collapse is behaviour preserving.
  * Python `set` values used by the source (`set(body_indices)`,
    `set(range(18))`, the attacher's collected index set) are modelled as
    duplicate-free lists; all iterations over them in the source perform
    per-index updates at disjoint positions whose result is independent of
    iteration order, so a fixed list order is faithful.
-/

/-- Python list read `l[i]` for a nonnegative index `i`: `none` is IndexError. -/
def pyGet {α : Type} (l : List α) (i : Nat) : Option α := l[i]?

/-- Python list assignment `l[i] = v` for a nonnegative index `i`:
`none` is IndexError, otherwise the updated list. -/
def pySet {α : Type} (l : List α) (i : Nat) (v : α) : Option (List α) :=
  if i < l.length then some (l.set i v) else none

/-- Python augmented assignment `l[i] += d` (read then write at `i`). -/
def pyAddAt (l : List ℚ) (i : Nat) (d : ℚ) : Option (List ℚ) :=
  match l[i]? with
  | none => none
  | some v => some (l.set i (v + d))

/-- Resolution of a possibly negative Python index against a list of length
`n`: nonnegative indices must be `< n`, negative indices count from the
end; `none` is IndexError. -/
def pyResolveIdx (n : Nat) (i : Int) : Option Nat :=
  if 0 ≤ i then (if i < (n : Int) then some i.toNat else none)
  else (if 0 ≤ (n : Int) + i then some ((n : Int) + i).toNat else none)

/-- Python `range(0, n, 3)`: the multiples of 3 below `n`, in increasing
order. -/
def pyRange3 (n : Nat) : List Nat := (List.range n).filter (fun i => i % 3 = 0)

/-- Monadic map of an `Option`-valued function over a list, propagating the
first `none` (the first raised exception). -/
def optionMapList {α β : Type} (f : α → Option β) : List α → Option (List β)
  | [] => some []
  | a :: rest =>
    match f a, optionMapList f rest with
    | some b, some bs => some (b :: bs)
    | _, _ => none

/-! ## Data model

A keypoint array is a flat list of `(x, y, confidence)` triplets; a person
holds an optional body array plus optional left-hand / right-hand / face
arrays; a frame holds an optional people list and canvas dimensions. -/

structure Person where
  pose_keypoints_2d : Option (List ℚ)
  hand_left_keypoints_2d : Option (List ℚ)
  hand_right_keypoints_2d : Option (List ℚ)
  face_keypoints_2d : Option (List ℚ)
deriving DecidableEq

structure Frame where
  people : Option (List Person)
  canvas_width : Int
  canvas_height : Int
deriving DecidableEq

/-- A `POSE_SELECTION` value as produced by `PoseKeypointSelectorNode`. -/
structure Selection where
  body_indices : List Nat
  include_face : Bool
  include_left_hand : Bool
  include_right_hand : Bool
deriving DecidableEq

/-- A mover offset parameter: a single scalar or an animated per-frame list
(`x_offset` / `y_offset` of `PoseKeypointMoverNode.move_keypoints`). -/
inductive PyFloatOrList where
  | scalar (x : ℚ)
  | list (xs : List ℚ)
deriving DecidableEq

/-! ## `body_part_definitions.py` -/

/-- The `BODY_PART_GROUPS` table of `body_part_definitions.py`. -/
def BODY_PART_GROUPS : List (String × List Nat) :=
  [ ("left_upper_arm", [5, 6]),
    ("left_forearm", [6, 7]),
    ("left_full_arm", [5, 6, 7]),
    ("right_upper_arm", [2, 3]),
    ("right_forearm", [3, 4]),
    ("right_full_arm", [2, 3, 4]),
    ("left_upper_leg", [11, 12]),
    ("left_lower_leg", [12, 13]),
    ("left_full_leg", [11, 12, 13]),
    ("right_upper_leg", [8, 9]),
    ("right_lower_leg", [9, 10]),
    ("right_full_leg", [8, 9, 10]),
    ("left_foot", [13]),
    ("right_foot", [10]),
    ("torso", [1, 2, 5, 8, 11]),
    ("shoulders", [2, 5]),
    ("head", [0, 14, 15, 16, 17]),
    ("head_and_neck", [0, 1, 14, 15, 16, 17]),
    ("upper_body", [0, 1, 2, 3, 4, 5, 6, 7, 14, 15, 16, 17]),
    ("lower_body", [8, 9, 10, 11, 12, 13]),
    ("arms", [2, 3, 4, 5, 6, 7]),
    ("legs", [8, 9, 10, 11, 12, 13]),
    ("left_side", [5, 6, 7, 11, 12, 13, 15, 17]),
    ("right_side", [2, 3, 4, 8, 9, 10, 14, 16]),
    ("all", List.range 18) ]

/-- `BODY_PART_GROUPS.get(name, dflt)`. -/
def bodyPartGet (name : String) (dflt : List Nat) : List Nat :=
  (BODY_PART_GROUPS.lookup name).getD dflt

/-! ## `PoseKeypointSelectorNode.create_selection` -/

/-- Insertion of a value into a sorted list (helper for modelling Python
`sorted`). -/
def sortedInsert (x : Nat) : List Nat → List Nat
  | [] => [x]
  | y :: rest => if x ≤ y then x :: y :: rest else y :: sortedInsert x rest

/-- Python `sorted(list(s))` for a set `s` given as a duplicate-free list:
sort after removing duplicates. -/
def sortedDedup (l : List Nat) : List Nat := l.dedup.foldr sortedInsert []

/-- `PoseKeypointSelectorNode.create_selection`.  The `include_*` arguments
are the node's optional checkbox parameters (host default `True`). -/
def create_selection (selection_type : String)
    (include_head include_neck include_torso include_left_arm
     include_right_arm include_left_leg include_right_leg
     include_left_hand include_right_hand include_face : Bool) : Selection :=
  let base : Selection :=
    { body_indices := [],
      include_face := include_face,
      include_left_hand := include_left_hand,
      include_right_hand := include_right_hand }
  if selection_type = "custom" then
    let indices :=
      (if include_head then bodyPartGet "head" [] else []) ++
      (if include_neck then [1] else []) ++
      (if include_torso then bodyPartGet "torso" [] else []) ++
      (if include_left_arm then bodyPartGet "left_full_arm" [] else []) ++
      (if include_right_arm then bodyPartGet "right_full_arm" [] else []) ++
      (if include_left_leg then bodyPartGet "left_full_leg" [] else []) ++
      (if include_right_leg then bodyPartGet "right_full_leg" [] else [])
    { base with body_indices := sortedDedup indices }
  else
    let s1 := { base with body_indices := bodyPartGet selection_type (List.range 18) }
    if selection_type ∈ ["lower_body", "legs", "left_full_leg", "right_full_leg",
                         "left_foot", "right_foot"] then
      { s1 with include_face := false }
    else s1

/-! ## `PoseKeypointFilterNode` -/

/-- The loop body of `PoseKeypointFilterNode._filter_keypoints`, iterating
over the positions `range(0, len, 3)`: zero the confidence channel of every
keypoint whose keep status (memberhip in `keep`, xor `invert`) is false. -/
def filter_keypoints_go (keep : List Nat) (invert : Bool) :
    List Nat → List ℚ → Option (List ℚ)
  | [], l => some l
  | i :: rest, l =>
    let shouldKeep : Bool := (keep.contains (i / 3)) != invert
    if shouldKeep then filter_keypoints_go keep invert rest l
    else
      match pySet l (i + 2) 0 with
      | none => none
      | some l1 => filter_keypoints_go keep invert rest l1

/-- `PoseKeypointFilterNode._filter_keypoints` on a non-`None` keypoints
list (the `None` case is handled by the caller `filter_person`). -/
def filter_keypoints (kps : List ℚ) (keep : List Nat) (invert : Bool) :
    Option (List ℚ) :=
  filter_keypoints_go keep invert (pyRange3 kps.length) kps

/-- `PoseKeypointFilterNode._zero_all_keypoints`: zero every position
`i % 3 == 2` (the loop `range(2, len, 3)`). -/
def zero_all_keypoints_go : Nat → List ℚ → List ℚ
  | _, [] => []
  | i, v :: rest => (if i % 3 = 2 then 0 else v) :: zero_all_keypoints_go (i + 1) rest

def zero_all_keypoints (l : List ℚ) : List ℚ := zero_all_keypoints_go 0 l

/-- The hands/face part of `filter_pose`'s per-person loop body (lines
168–185): wholly zero each hand/face array whose inclusion flag (xor
`invert`) is off. -/
def filter_zero_groups (sel : Selection) (invert : Bool) (q : Person) : Person :=
  let q1 := if (!sel.include_left_hand) != invert then
      match q.hand_left_keypoints_2d with
      | none => q
      | some h => { q with hand_left_keypoints_2d := some (zero_all_keypoints h) }
    else q
  let q2 := if (!sel.include_right_hand) != invert then
      match q1.hand_right_keypoints_2d with
      | none => q1
      | some h => { q1 with hand_right_keypoints_2d := some (zero_all_keypoints h) }
    else q1
  if (!sel.include_face) != invert then
    match q2.face_keypoints_2d with
    | none => q2
    | some h => { q2 with face_keypoints_2d := some (zero_all_keypoints h) }
  else q2

/-- The per-person body of `PoseKeypointFilterNode.filter_pose`'s loop:
filter the body array, then wholly zero the disabled hand/face groups. -/
def filter_person (sel : Selection) (invert : Bool) (p : Person) : Option Person :=
  match p.pose_keypoints_2d with
  | none => some (filter_zero_groups sel invert p)
  | some kps =>
    match filter_keypoints kps sel.body_indices invert with
    | none => none
    | some kps1 =>
      some (filter_zero_groups sel invert { p with pose_keypoints_2d := some kps1 })

/-- The shared person-editing loop of `filter_pose` / `move_keypoints`:
for each requested index, skip it when `idx >= len(people)`, otherwise
resolve it Python-style, transform the person there and store it back. -/
def edit_people (f : Person → Option Person) :
    List Person → List Int → Option (List Person)
  | ppl, [] => some ppl
  | ppl, idx :: rest =>
    if (ppl.length : Int) ≤ idx then edit_people f ppl rest
    else
      match pyResolveIdx ppl.length idx with
      | none => none
      | some n =>
        match ppl[n]? with
        | none => none
        | some p =>
          match f p with
          | none => none
          | some p1 => edit_people f (ppl.set n p1) rest

/-- The person indices targeted by a node given its `person_index`
parameter: every person when `-1`, otherwise just that index. -/
def peopleToEdit (count : Nat) (person_index : Int) : List Int :=
  if person_index = -1 then (List.range count).map Int.ofNat else [person_index]

/-- One frame of `PoseKeypointFilterNode.filter_pose`. -/
def filter_frame (sel : Selection) (person_index : Int) (invert : Bool)
    (fr : Frame) : Option Frame :=
  match fr.people with
  | none => some fr
  | some ppl =>
    match edit_people (filter_person sel invert) ppl (peopleToEdit ppl.length person_index) with
    | none => none
    | some ppl1 => some { fr with people := some ppl1 }

/-- `PoseKeypointFilterNode.filter_pose`. -/
def filter_pose (seq : List Frame) (sel : Selection) (person_index : Int)
    (invert : Bool) : Option (List Frame) :=
  optionMapList (filter_frame sel person_index invert) seq

/-! ## `PoseKeypointMoverNode` -/

/-- `PoseKeypointMoverNode._normalize_to_list`: reconcile a scalar or list
offset with the target frame count under the given mismatch behavior.
`none` models the `ZeroDivisionError` of `value[i % len(value)]` on an
empty list under `"loop"`. -/
def normalize_to_list (value : PyFloatOrList) (target_length : Nat)
    (behavior : String) : Option (List ℚ) :=
  match value with
  | .scalar x => some (List.replicate target_length x)
  | .list xs =>
    if xs.length = target_length then some xs
    else if behavior = "truncate" then some (xs.take target_length)
    else if behavior = "loop" then
      if xs.length = 0 ∧ 0 < target_length then none
      else some ((List.range target_length).map (fun i => xs.getD (i % xs.length) 0))
    else if behavior = "repeat" then
      if xs.length = 0 then some (List.replicate target_length 0)
      else some (xs ++ List.replicate (target_length - xs.length) (xs.getLast!))
    else some (xs.take target_length)

/-- The mover's left-hand gate when an explicit selection is supplied
(`move_keypoints`, line 295). -/
def mover_left_hand_gate (s : Selection) (affect_hands : Bool) : Bool :=
  s.include_left_hand || (affect_hands && s.body_indices.contains 7)

/-- The mover's right-hand gate when an explicit selection is supplied
(`move_keypoints`, line 296). -/
def mover_right_hand_gate (s : Selection) (affect_hands : Bool) : Bool :=
  s.include_right_hand || (affect_hands && s.body_indices.contains 4)

/-- The mover's face gate when an explicit selection is supplied
(`move_keypoints`, line 297). -/
def mover_face_gate (s : Selection) (affect_face : Bool) : Bool :=
  s.include_face || (affect_face && ([0, 14, 15, 16, 17].any (fun i => s.body_indices.contains i)))

/-- The scope `move_keypoints` resolves before its frame loop: the body
index set plus the three group gates. -/
structure MoverScope where
  body_indices : List Nat
  move_left_hand : Bool
  move_right_hand : Bool
  move_face : Bool

/-- Lines 293–302 of `pose_filter_nodes.py`: scope resolution, with the
explicit selection taking priority over the `appendage_type` fallback. -/
def mover_scope (sel : Option Selection) (appendage_type : String)
    (affect_hands affect_face : Bool) : MoverScope :=
  match sel with
  | some s =>
    { body_indices := s.body_indices,
      move_left_hand := mover_left_hand_gate s affect_hands,
      move_right_hand := mover_right_hand_gate s affect_hands,
      move_face := mover_face_gate s affect_face }
  | none =>
    let bi := bodyPartGet appendage_type (List.range 18)
    { body_indices := bi,
      move_left_hand := affect_hands && bi.contains 7,
      move_right_hand := affect_hands && bi.contains 4,
      move_face := affect_face && ([0, 14, 15, 16, 17].any (fun i => bi.contains i)) }

/-- The loop body of `PoseKeypointMoverNode._apply_offset` over the
positions `range(0, len, 3)`: add the offset to the x/y of every keypoint
whose index is selected and whose confidence is positive. -/
def apply_offset_go (indices : List Nat) (x y : ℚ) :
    List Nat → List ℚ → Option (List ℚ)
  | [], l => some l
  | i :: rest, l =>
    if indices.contains (i / 3) then
      match l[i + 2]? with
      | none => none
      | some c =>
        if 0 < c then
          match pyAddAt l i x with
          | none => none
          | some l1 =>
            match pyAddAt l1 (i + 1) y with
            | none => none
            | some l2 => apply_offset_go indices x y rest l2
        else apply_offset_go indices x y rest l
    else apply_offset_go indices x y rest l

/-- `PoseKeypointMoverNode._apply_offset` on a non-`None` keypoints list. -/
def apply_offset (kps : List ℚ) (indices : List Nat) (x y : ℚ) :
    Option (List ℚ) :=
  apply_offset_go indices x y (pyRange3 kps.length) kps

/-- The loop body of `PoseKeypointMoverNode._apply_offset_all`. -/
def apply_offset_all_go (x y : ℚ) : List Nat → List ℚ → Option (List ℚ)
  | [], l => some l
  | i :: rest, l =>
    match l[i + 2]? with
    | none => none
    | some c =>
      if 0 < c then
        match pyAddAt l i x with
        | none => none
        | some l1 =>
          match pyAddAt l1 (i + 1) y with
          | none => none
          | some l2 => apply_offset_all_go x y rest l2
      else apply_offset_all_go x y rest l

/-- `PoseKeypointMoverNode._apply_offset_all` on a non-`None` keypoints
list. -/
def apply_offset_all (kps : List ℚ) (x y : ℚ) : Option (List ℚ) :=
  apply_offset_all_go x y (pyRange3 kps.length) kps

/-- The body block of `move_keypoints`' per-person loop (lines 321–328). -/
def move_body_part (indices : List Nat) (x y : ℚ) (p : Person) : Option Person :=
  match p.pose_keypoints_2d with
  | none => some p
  | some kps =>
    match apply_offset kps indices x y with
    | none => none
    | some kps1 => some { p with pose_keypoints_2d := some kps1 }

/-- The left-hand block (lines 331–334). -/
def move_left_hand_part (flag : Bool) (x y : ℚ) (p : Person) : Option Person :=
  match flag, p.hand_left_keypoints_2d with
  | true, some h =>
    match apply_offset_all h x y with
    | none => none
    | some h1 => some { p with hand_left_keypoints_2d := some h1 }
  | _, _ => some p

/-- The right-hand block (lines 336–339). -/
def move_right_hand_part (flag : Bool) (x y : ℚ) (p : Person) : Option Person :=
  match flag, p.hand_right_keypoints_2d with
  | true, some h =>
    match apply_offset_all h x y with
    | none => none
    | some h1 => some { p with hand_right_keypoints_2d := some h1 }
  | _, _ => some p

/-- The face block (lines 342–345). -/
def move_face_part (flag : Bool) (x y : ℚ) (p : Person) : Option Person :=
  match flag, p.face_keypoints_2d with
  | true, some h =>
    match apply_offset_all h x y with
    | none => none
    | some h1 => some { p with face_keypoints_2d := some h1 }
  | _, _ => some p

/-- The per-person body of `move_keypoints`' frame loop: the four blocks in
source order. -/
def move_person (scope : MoverScope) (x y : ℚ) (p : Person) : Option Person :=
  match move_body_part scope.body_indices x y p with
  | none => none
  | some q =>
    match move_left_hand_part scope.move_left_hand x y q with
    | none => none
    | some r =>
      match move_right_hand_part scope.move_right_hand x y r with
      | none => none
      | some s => move_face_part scope.move_face x y s

/-- The frame loop of `move_keypoints` (lines 305–345): a frame without a
`people` entry is passed through before the per-frame offsets are read;
otherwise the offsets at the frame index are read (IndexError when the
normalized offset list is shorter than the sequence) and the targeted
people are edited. -/
def move_frames (scope : MoverScope) (person_index : Int)
    (xs ys : List ℚ) : Nat → List Frame → Option (List Frame)
  | _, [] => some []
  | i, fr :: rest =>
    match fr.people with
    | none =>
      match move_frames scope person_index xs ys (i + 1) rest with
      | none => none
      | some out => some (fr :: out)
    | some ppl =>
      match xs[i]?, ys[i]? with
      | some cx, some cy =>
        match edit_people (move_person scope cx cy) ppl (peopleToEdit ppl.length person_index) with
        | none => none
        | some ppl1 =>
          match move_frames scope person_index xs ys (i + 1) rest with
          | none => none
          | some out => some ({ fr with people := some ppl1 } :: out)
      | _, _ => none

/-- `PoseKeypointMoverNode.move_keypoints`. -/
def move_keypoints (seq : List Frame) (x_offset y_offset : PyFloatOrList)
    (sel : Option Selection) (appendage_type : String) (person_index : Int)
    (list_mismatch_behavior : String) (affect_hands affect_face : Bool) :
    Option (List Frame) :=
  match normalize_to_list x_offset seq.length list_mismatch_behavior,
        normalize_to_list y_offset seq.length list_mismatch_behavior with
  | some xs, some ys =>
    move_frames (mover_scope sel appendage_type affect_hands affect_face)
      person_index xs ys 0 seq
  | _, _ => none

/-! ## `PoseAttachNode` -/

/-- `PoseAttachNode._get_keypoint_pos`: the `[x, y]` position of a keypoint,
or `None` when out of range or without positive confidence. -/
def get_keypoint_pos (kps : List ℚ) (keypoint_idx : Nat) : Option (ℚ × ℚ) :=
  let i := keypoint_idx * 3
  if kps.length ≤ i + 2 then none
  else if kps.getD (i + 2) 0 ≤ 0 then none
  else some (kps.getD i 0, kps.getD (i + 1) 0)

/-- The attacher's transplant loop over the index set: per index, compute
the offset donor triplet and overwrite the base triplet when both arrays
are long enough.  Every access is length guarded in the source, so the
loop is total. -/
def attach_body_go (att : List ℚ) (offset_x offset_y : ℚ) :
    List Nat → List ℚ → List ℚ
  | [], nk => nk
  | idx :: rest, nk =>
    let i := idx * 3
    let nk1 :=
      if i + 2 < att.length then
        if i + 2 < nk.length then
          (((nk.set i (att.getD i 0 + offset_x)).set (i + 1)
              (att.getD (i + 1) 0 + offset_y)).set (i + 2) (att.getD (i + 2) 0))
        else nk
      else nk
    attach_body_go att offset_x offset_y rest nk1

/-- The index set the attacher transplants when no selection is supplied:
every attachment body index with positive confidence
(`_attach_keypoints`, lines 150–155). -/
def collect_conf_indices (att : List ℚ) : List Nat :=
  (pyRange3 att.length).filterMap
    (fun i => if i + 2 < att.length ∧ 0 < att.getD (i + 2) 0 then some (i / 3) else none)

/-- `PoseAttachNode._attach_hand_keypoints` / `_attach_face_keypoints` donor
array: offset every complete triplet, dropping a partial tail. -/
def offset_triples (offset_x offset_y : ℚ) : List ℚ → List ℚ
  | a :: b :: c :: rest => (a + offset_x) :: (b + offset_y) :: c :: offset_triples offset_x offset_y rest
  | _ => []

/-- The hands/face transplant tail of `_attach_keypoints` (lines 177–184):
wholesale replacement of the base arrays by the offset donor arrays, when
the donor array is present and nonempty. -/
def attach_hands_face (p attachment_person : Person) (offset_x offset_y : ℚ)
    (do_attach_hands do_attach_face : Bool) : Person :=
  let p2 :=
    if do_attach_hands then
      let p1a :=
        match attachment_person.hand_left_keypoints_2d with
        | none => p
        | some [] => p
        | some h => { p with hand_left_keypoints_2d := some (offset_triples offset_x offset_y h) }
      match attachment_person.hand_right_keypoints_2d with
      | none => p1a
      | some [] => p1a
      | some h => { p1a with hand_right_keypoints_2d := some (offset_triples offset_x offset_y h) }
    else p
  if do_attach_face then
    match attachment_person.face_keypoints_2d with
    | none => p2
    | some [] => p2
    | some h => { p2 with face_keypoints_2d := some (offset_triples offset_x offset_y h) }
  else p2

/-- The index set `_attach_keypoints` transplants (lines 145–155): the
selection's body indices, else every donor index with positive
confidence. -/
def attach_indices (sel : Option Selection) (attachment_keypoints : List ℚ) : List Nat :=
  match sel with
  | some s => s.body_indices
  | none => collect_conf_indices attachment_keypoints

/-- The hands flag of `_attach_keypoints` (lines 147, 156). -/
def attach_do_hands (sel : Option Selection) (attach_hands : Bool) : Bool :=
  match sel with
  | some s => s.include_left_hand || s.include_right_hand || attach_hands
  | none => attach_hands

/-- The face flag of `_attach_keypoints` (lines 148, 157). -/
def attach_do_face (sel : Option Selection) (attach_face : Bool) : Bool :=
  match sel with
  | some s => s.include_face || attach_face
  | none => attach_face

/-- `PoseAttachNode._attach_keypoints` on the two persons of one frame. -/
def attach_keypoints (base_person attachment_person : Person)
    (attach_point_idx : Nat) (sel : Option Selection)
    (attach_hands attach_face : Bool) : Person :=
  let base_keypoints := base_person.pose_keypoints_2d.getD []
  let attachment_keypoints := attachment_person.pose_keypoints_2d.getD []
  if base_keypoints = [] ∨ attachment_keypoints = [] then base_person
  else
    match get_keypoint_pos base_keypoints attach_point_idx,
          get_keypoint_pos attachment_keypoints attach_point_idx with
    | some bpos, some apos =>
      let offset_x := bpos.1 - apos.1
      let offset_y := bpos.2 - apos.2
      let new_keypoints :=
        attach_body_go attachment_keypoints offset_x offset_y
          (attach_indices sel attachment_keypoints) base_keypoints
      let p1 := { base_person with pose_keypoints_2d := some new_keypoints }
      attach_hands_face p1 attachment_person offset_x offset_y
        (attach_do_hands sel attach_hands) (attach_do_face sel attach_face)
    | _, _ => base_person

/-- One output frame of `PoseAttachNode.attach_pose`: pass the base frame
through when either frame lacks people or a person index is out of range,
otherwise attach onto the base person. -/
def attach_frame (anchor : Nat) (sel : Option Selection)
    (base_person_index attachment_person_index : Nat)
    (attach_hands attach_face : Bool) (base_frame attachment_frame : Frame) : Frame :=
  match base_frame.people, attachment_frame.people with
  | some bppl, some appl =>
    if bppl.length ≤ base_person_index then base_frame
    else if appl.length ≤ attachment_person_index then base_frame
    else
      match bppl[base_person_index]?, appl[attachment_person_index]? with
      | some bp, some ap =>
        { base_frame with
          people := some (bppl.set base_person_index
            (attach_keypoints bp ap anchor sel attach_hands attach_face)) }
      | _, _ => base_frame
  | _, _ => base_frame

/-- The frame loop of `attach_pose`, over output indices `range(max_frames)`;
each sequence is indexed cyclically.  `l[j % l.length]?` is `none` exactly
when the sequence is empty, modelling Python's `j % 0` ZeroDivisionError. -/
def attach_frames_go (base att : List Frame) (anchor : Nat)
    (sel : Option Selection) (bIdx aIdx : Nat) (ah af : Bool) :
    List Nat → Option (List Frame)
  | [] => some []
  | j :: rest =>
    match base[j % base.length]?, att[j % att.length]? with
    | some bf, some afr =>
      match attach_frames_go base att anchor sel bIdx aIdx ah af rest with
      | none => none
      | some out => some (attach_frame anchor sel bIdx aIdx ah af bf afr :: out)
    | _, _ => none

/-- `PoseAttachNode.attach_pose` (the anchor index already parsed from the
`"4: RWrist"`-style host string). -/
def attach_pose (base att : List Frame) (anchor : Nat) (sel : Option Selection)
    (base_person_index attachment_person_index : Nat)
    (attach_hands attach_face : Bool) : Option (List Frame) :=
  attach_frames_go base att anchor sel base_person_index attachment_person_index
    attach_hands attach_face (List.range (max base.length att.length))

/-! ## `PoseMergeNode` -/

/-- One output frame's people, concatenated in input order; each input is
read at `min(frame_idx, len - 1)` (hold-last).  `none` models the
IndexError of `pose_list[-1]` on an empty input. -/
def merge_people_go (frame_idx : Nat) : List (List Frame) → Option (List Person)
  | [] => some []
  | l :: rest =>
    match l[min frame_idx (l.length - 1)]? with
    | none => none
    | some src =>
      match merge_people_go frame_idx rest with
      | none => none
      | some ppl => some (src.people.getD [] ++ ppl)

/-- The frame loop of `PoseMergeNode.merge_poses`. -/
def merge_frames_go (inputs : List (List Frame)) (cw ch : Int) :
    List Nat → Option (List Frame)
  | [] => some []
  | j :: rest =>
    match merge_people_go j inputs with
    | none => none
    | some ppl =>
      match merge_frames_go inputs cw ch rest with
      | none => none
      | some out =>
        some ({ people := some ppl, canvas_width := cw, canvas_height := ch } :: out)

/-- The non-`None` pose inputs collected by `merge_poses` (lines 55–58). -/
def merge_inputs (p1 : List Frame) (p2 p3 p4 p5 : Option (List Frame)) :
    List (List Frame) :=
  p1 :: ([p2, p3, p4, p5].filterMap id)

/-- `max_frames`: the maximum frame count across the collected inputs. -/
def merge_max_frames (inputs : List (List Frame)) : Nat :=
  inputs.foldl (fun a l => max a l.length) 0

/-- `PoseMergeNode.merge_poses`: the required first input plus up to four
optional ones. -/
def merge_poses (p1 : List Frame) (p2 p3 p4 p5 : Option (List Frame))
    (canvas_width canvas_height : Int) : Option (List Frame) :=
  let pose_inputs := merge_inputs p1 p2 p3 p4 p5
  merge_frames_go pose_inputs canvas_width canvas_height
    (List.range (merge_max_frames pose_inputs))

/-! ## `PoseTemporalSmoothingNode` -/

/-- `PoseTemporalSmoothingNode._smooth_value`: first-order exponential
smoothing. -/
def smooth_value (previous current factor : ℚ) : ℚ :=
  previous + factor * (current - previous)

/-- The guarded per-keypoint body update shared by the focus step and the
independent loop (`_smooth_person_with_focus` lines 156–163,
`_smooth_person_independent` lines 209–218): when both arrays reach the
confidence channel and both confidences are positive, smooth x and y in
place. -/
def smooth_body_go (prev : List ℚ) (factor : ℚ) :
    List Nat → List ℚ → List ℚ
  | [], cur => cur
  | k :: rest, cur =>
    let i := 3 * k
    let cur1 :=
      if i + 2 < cur.length ∧ i + 2 < prev.length then
        if 0 < cur.getD (i + 2) 0 ∧ 0 < prev.getD (i + 2) 0 then
          let c1 := cur.set i (smooth_value (prev.getD i 0) (cur.getD i 0) factor)
          c1.set (i + 1) (smooth_value (prev.getD (i + 1) 0) (cur.getD (i + 1) 0) factor)
        else cur
      else cur
    smooth_body_go prev factor rest cur1

/-- `PoseTemporalSmoothingNode._smooth_keypoint_array`'s rebuilt list for
two equal-length arrays: per complete triplet, smooth x/y and keep the
current confidence when both confidences are positive, else keep the
current triplet; a partial tail is dropped. -/
def smooth_array_vals (factor : ℚ) : List ℚ → List ℚ → List ℚ
  | pa :: pb :: pc :: prest, ca :: cb :: cc :: crest =>
    (if 0 < cc ∧ 0 < pc then
        [smooth_value pa ca factor, smooth_value pb cb factor, cc]
      else [ca, cb, cc]) ++ smooth_array_vals factor prest crest
  | _, _ => []

/-- `PoseTemporalSmoothingNode._smooth_keypoint_array` on one keypoint
field, given a getter/setter pair for the field: a missing array on either
side or a length mismatch leaves the person unchanged. -/
def smooth_kp_field (getf : Person → Option (List ℚ))
    (setf : Person → List ℚ → Person) (current_person previous_person : Person)
    (factor : ℚ) : Person :=
  match getf current_person, getf previous_person with
  | some ck, some pk =>
    if ck.length = pk.length then setf current_person (smooth_array_vals factor pk ck)
    else current_person
  | _, _ => current_person

/-- The hands/face smoothing tail shared by both per-person paths. -/
def smooth_hands_face (current_person previous_person : Person) (factor : ℚ)
    (sHands sFace : Bool) : Person :=
  let p1 :=
    if sHands then
      let a := smooth_kp_field (fun p => p.hand_left_keypoints_2d)
        (fun p l => { p with hand_left_keypoints_2d := some l })
        current_person previous_person factor
      smooth_kp_field (fun p => p.hand_right_keypoints_2d)
        (fun p l => { p with hand_right_keypoints_2d := some l })
        a previous_person factor
    else current_person
  if sFace then
    smooth_kp_field (fun p => p.face_keypoints_2d)
      (fun p l => { p with face_keypoints_2d := some l })
      p1 previous_person factor
  else p1

/-- `PoseTemporalSmoothingNode._smooth_person_independent`. -/
def smooth_person_independent (current_person previous_person : Person)
    (factor : ℚ) (body_indices_to_smooth : List Nat) (sHands sFace : Bool) :
    Person :=
  let current_body := current_person.pose_keypoints_2d.getD []
  let previous_body := previous_person.pose_keypoints_2d.getD []
  let smoothed := smooth_body_go previous_body factor body_indices_to_smooth current_body
  let p1 :=
    if current_body ≠ [] ∧ previous_body ≠ [] then
      { current_person with pose_keypoints_2d := some smoothed }
    else current_person
  smooth_hands_face p1 previous_person factor sHands sFace

/-- `PoseTemporalSmoothingNode._smooth_person_with_focus`.  The early
`return` on an empty body array skips the hands/face tail; the unguarded
read of `current_body[focus_idx]` / `[focus_idx + 1]` (line 166) is the one
possible IndexError, modelled by `none`. -/
def smooth_person_with_focus (current_person previous_person : Person)
    (factor : ℚ) (focus_point_idx : Nat) (body_indices_to_smooth : List Nat)
    (sHands sFace : Bool) : Option Person :=
  let current_body := current_person.pose_keypoints_2d.getD []
  let previous_body := previous_person.pose_keypoints_2d.getD []
  if current_body = [] ∨ previous_body = [] then some current_person
  else
    let body1 := smooth_body_go previous_body factor [focus_point_idx] current_body
    if 3 * focus_point_idx + 1 < body1.length then
      let body2 := smooth_body_go previous_body factor
        (body_indices_to_smooth.filter (fun k => k ≠ focus_point_idx)) body1
      let p1 := { current_person with pose_keypoints_2d := some body2 }
      some (smooth_hands_face p1 previous_person factor sHands sFace)
    else none

/-- Dispatch between the two per-person smoothing paths on the parsed
focus point. -/
def smooth_targeted_person (factor : ℚ) (focus : Option Nat)
    (body_indices_to_smooth : List Nat) (sHands sFace : Bool)
    (current_person previous_person : Person) : Option Person :=
  match focus with
  | some fp =>
    smooth_person_with_focus current_person previous_person factor fp
      body_indices_to_smooth sHands sFace
  | none =>
    some (smooth_person_independent current_person previous_person factor
      body_indices_to_smooth sHands sFace)

/-- The people loop of one `smooth_pose` frame step: a person index out of
range of either frame's people is skipped; otherwise the current person is
smoothed against the previous output person and stored back. -/
def smooth_people_go (g : Person → Person → Option Person)
    (prevPpl : List Person) : List Person → List Int → Option (List Person)
  | cur, [] => some cur
  | cur, idx :: rest =>
    if (cur.length : Int) ≤ idx ∨ (prevPpl.length : Int) ≤ idx then
      smooth_people_go g prevPpl cur rest
    else
      match pyResolveIdx cur.length idx, pyResolveIdx prevPpl.length idx with
      | some n, some np =>
        match cur[n]?, prevPpl[np]? with
        | some cp, some pp =>
          match g cp pp with
          | none => none
          | some cp1 => smooth_people_go g prevPpl (cur.set n cp1) rest
        | _, _ => none
      | _, _ => none

/-- One step of `smooth_pose`'s frame loop: derive the output frame for the
current input frame from the previous output frame. -/
def smooth_step (factor : ℚ) (focus : Option Nat)
    (body_indices_to_smooth : List Nat) (person_index : Int)
    (sHands sFace : Bool) (previous_frame current_frame : Frame) : Option Frame :=
  match previous_frame.people, current_frame.people with
  | some pppl, some cppl =>
    match smooth_people_go
        (smooth_targeted_person factor focus body_indices_to_smooth sHands sFace)
        pppl cppl (peopleToEdit cppl.length person_index) with
    | none => none
    | some cppl1 => some { current_frame with people := some cppl1 }
  | _, _ => some current_frame

/-- The recursive frame loop of `smooth_pose`: each output frame becomes
the previous frame for the next step. -/
def smooth_frames (factor : ℚ) (focus : Option Nat)
    (body_indices_to_smooth : List Nat) (person_index : Int)
    (sHands sFace : Bool) : Frame → List Frame → Option (List Frame)
  | _, [] => some []
  | prev, cf :: rest =>
    match smooth_step factor focus body_indices_to_smooth person_index
        sHands sFace prev cf with
    | none => none
    | some ofr =>
      match smooth_frames factor focus body_indices_to_smooth person_index
          sHands sFace ofr rest with
      | none => none
      | some out => some (ofr :: out)

/-- The effective body index set of `smooth_pose` (lines 91–99): the
selection's indices as a set, or all 18 body indices. -/
def smoother_body_indices (sel : Option Selection) : List Nat :=
  match sel with
  | some s => s.body_indices.dedup
  | none => List.range 18

/-- The effective hands flag of `smooth_pose`. -/
def smoother_do_hands (sel : Option Selection) (smooth_hands : Bool) : Bool :=
  match sel with
  | some s => s.include_left_hand || s.include_right_hand || smooth_hands
  | none => smooth_hands

/-- The effective face flag of `smooth_pose`. -/
def smoother_do_face (sel : Option Selection) (smooth_face : Bool) : Bool :=
  match sel with
  | some s => s.include_face || smooth_face
  | none => smooth_face

/-- `PoseTemporalSmoothingNode.smooth_pose` (the focus point already parsed
from the `"none"` / `"4: RWrist"`-style host string).  A sequence of at
most one frame is returned unchanged. -/
def smooth_pose (seq : List Frame) (smoothing_factor : ℚ)
    (sel : Option Selection) (focus : Option Nat) (person_index : Int)
    (smooth_hands smooth_face : Bool) : Option (List Frame) :=
  if seq.length ≤ 1 then some seq
  else
    match seq with
    | [] => some []
    | f0 :: rest =>
      match smooth_frames smoothing_factor focus (smoother_body_indices sel)
          person_index (smoother_do_hands sel smooth_hands)
          (smoother_do_face sel smooth_face) f0 rest with
      | none => none
      | some out => some (f0 :: out)

/-! ## General list lemmas -/

theorem setGetSelf {α : Type} (l : List α) (n : Nat) (a : α) (h : l[n]? = some a) :
    l.set n a = l := by
  induction l generalizing n with
  | nil => simp at h
  | cons x xs ih =>
    cases n with
    | zero => simp at h; simp [List.set, h]
    | succ m => simp at h; simp [List.set, ih m h]

theorem mem_pyRange3 {i n : Nat} : i ∈ pyRange3 n ↔ i < n ∧ i % 3 = 0 := by
  simp [pyRange3, List.mem_filter, List.mem_range]

theorem pyRange3_nodup (n : Nat) : (pyRange3 n).Nodup :=
  (List.nodup_range n).filter _

/-! ## C10: empty offset list under "repeat" -/

/-- **C10.** For every target frame count `n`, the mover's offset
normalization maps an empty animated offset list under mismatch policy
`"repeat"` to the all-zero offset list of length `n` (effective offset 0
for every frame) instead of raising an error. -/
theorem normalize_repeat_empty_is_zeros (n : Nat) :
    normalize_to_list (.list []) n "repeat" = some (List.replicate n 0) := by
  cases n <;> simp [normalize_to_list]

/-! ## C9: selector face override for lower-body presets -/

/-- **C9.** `create_selection` forces `include_face` to false for the six
lower-body presets regardless of the face toggle, and passes the face
toggle through for every other selection type. -/
theorem create_selection_face_override (selection_type : String)
    (ihd inck itor ila ira ill irl ilh irh ifc : Bool) :
    (create_selection selection_type ihd inck itor ila ira ill irl ilh irh ifc).include_face =
      (if selection_type ∈ ["lower_body", "legs", "left_full_leg", "right_full_leg",
                            "left_foot", "right_foot"] then false else ifc) := by
  by_cases hc : selection_type = "custom"
  · subst hc; simp [create_selection]
  · by_cases hm : selection_type ∈ ["lower_body", "legs", "left_full_leg",
        "right_full_leg", "left_foot", "right_foot"]
    · have : selection_type ≠ "custom" := hc
      simp [create_selection, hc, hm]
    · simp [create_selection, hc, hm]

/-! ## C8: mover hand/face gating with an explicit selection -/

/-- **C8.** With an explicit selection, the mover moves the left (resp.
right) hand group iff the selection's hand flag is set or `affect_hands`
holds and wrist index 7 (resp. 4) is selected, and moves the face group iff
the selection's face flag is set or `affect_face` holds and one of the head
indices 0, 14, 15, 16, 17 is selected. -/
theorem mover_gates_spec (s : Selection) (affect_hands affect_face : Bool) :
    ((mover_scope (some s) "all" affect_hands affect_face).move_left_hand = true ↔
      (s.include_left_hand = true ∨ (affect_hands = true ∧ 7 ∈ s.body_indices))) ∧
    ((mover_scope (some s) "all" affect_hands affect_face).move_right_hand = true ↔
      (s.include_right_hand = true ∨ (affect_hands = true ∧ 4 ∈ s.body_indices))) ∧
    ((mover_scope (some s) "all" affect_hands affect_face).move_face = true ↔
      (s.include_face = true ∨ (affect_face = true ∧
        (0 ∈ s.body_indices ∨ 14 ∈ s.body_indices ∨ 15 ∈ s.body_indices ∨
         16 ∈ s.body_indices ∨ 17 ∈ s.body_indices)))) := by
  refine ⟨?_, ?_, ?_⟩ <;>
    simp [mover_scope, mover_left_hand_gate, mover_right_hand_gate, mover_face_gate,
      List.contains_iff_exists_mem_beq, beq_iff_eq]

/-! ## C1: the "truncate" mismatch policy on a shorter offset list -/

/-- A minimal frame carrying a (possibly empty) `people` entry. -/
def frameWithPeople (ppl : List Person) : Frame :=
  { people := some ppl, canvas_width := 512, canvas_height := 768 }

/-- **C1** (failing evaluation).  On a 3-frame sequence whose frames carry a
`people` entry, an animated offset list of length 2 under mismatch policy
`"truncate"` makes `move_keypoints` raise an IndexError (modelled `none`)
at frame index 2 instead of clamping to the last valid offset: the
normalized offset list keeps length 2 and the frame loop reads past its
end. -/
theorem mover_truncate_short_list_crashes :
    move_keypoints [frameWithPeople [], frameWithPeople [], frameWithPeople []]
      (.list [1, 2]) (.list [1, 2]) none "all" (-1) "truncate" false false = none ∧
    normalize_to_list (.list [1, 2]) 3 "truncate" = some [1, 2] := by
  constructor <;> rfl

/-! ## C5: merge length law and hold-last people concatenation -/

/-- The people contributed by one input at output frame `j`: the people of
its frame `min j (len - 1)` (hold-last), or nothing when that frame lacks
people. -/
def merge_contribution (l : List Frame) (j : Nat) : List Person :=
  ((l[min j (l.length - 1)]?).map (fun s => s.people.getD [])).getD []

/-- The output frame the merge produces at index `j`: the held-frame
people of every input concatenated in input order, under the merge's own
canvas dimensions. -/
def merge_expected_frame (inputs : List (List Frame)) (cw ch : Int) (j : Nat) : Frame :=
  { people := some ((inputs.map (fun l => merge_contribution l j)).flatten),
    canvas_width := cw, canvas_height := ch }

theorem merge_people_go_eq (j : Nat) (inputs : List (List Frame))
    (h : ∀ l ∈ inputs, l ≠ []) :
    merge_people_go j inputs =
      some ((inputs.map (fun l => merge_contribution l j)).flatten) := by
  induction inputs with
  | nil => rfl
  | cons l rest ih =>
    have hl : l ≠ [] := h l (by simp)
    have hlt : min j (l.length - 1) < l.length := by
      have := List.length_pos.mpr hl
      omega
    obtain ⟨v, hsome⟩ : ∃ v, l[min j (l.length - 1)]? = some v :=
      ⟨_, List.getElem?_eq_getElem hlt⟩
    have ihr := ih (fun m hm => h m (by simp [hm]))
    simp only [merge_people_go, hsome, ihr, merge_contribution]
    simp [hsome]

theorem merge_frames_go_eq (inputs : List (List Frame)) (cw ch : Int)
    (js : List Nat) (h : ∀ l ∈ inputs, l ≠ []) :
    merge_frames_go inputs cw ch js =
      some (js.map (merge_expected_frame inputs cw ch)) := by
  induction js with
  | nil => rfl
  | cons j rest ih =>
    simp only [merge_frames_go, merge_people_go_eq j inputs h, ih, List.map_cons]
    rfl

/-- **C5** (amended: all inputs nonempty).  For every list of 1 to 5
nonempty input pose sequences, `merge_poses` returns a sequence whose
length is the maximum frame count among the inputs, and each output
frame's people list is the concatenation, in input order, of each source's
people for that frame, a shorter input holding its last frame once its
frames are exhausted. -/
theorem merge_length_and_hold_last (p1 : List Frame)
    (p2 p3 p4 p5 : Option (List Frame)) (cw ch : Int)
    (hne : ∀ l ∈ merge_inputs p1 p2 p3 p4 p5, l ≠ []) :
    ∃ out, merge_poses p1 p2 p3 p4 p5 cw ch = some out ∧
      out.length = merge_max_frames (merge_inputs p1 p2 p3 p4 p5) ∧
      ∀ j, j < out.length →
        out[j]? = some (merge_expected_frame (merge_inputs p1 p2 p3 p4 p5) cw ch j) := by
  refine ⟨(List.range (merge_max_frames (merge_inputs p1 p2 p3 p4 p5))).map
      (merge_expected_frame (merge_inputs p1 p2 p3 p4 p5) cw ch), ?_, ?_, ?_⟩
  · unfold merge_poses
    exact merge_frames_go_eq _ cw ch _ hne
  · simp
  · intro j hj
    simp only [List.length_map, List.length_range] at hj
    simp [List.getElem?_map, List.getElem?_range hj]

/-- **C5** (counterexample to the unamended claim).  With an empty first
input sequence and a 2-frame second input, the maximum frame count is 2
but `merge_poses` raises an IndexError (`pose_list[-1]` on the empty
input) instead of returning a 2-frame sequence. -/
theorem merge_empty_input_crashes :
    merge_poses [] (some [frameWithPeople [], frameWithPeople []]) none none none
      512 768 = none ∧
    merge_max_frames (merge_inputs [] (some [frameWithPeople [], frameWithPeople []])
      none none none) = 2 := by
  constructor <;> rfl

/-- Witness for `merge_length_and_hold_last` at a concrete input: a
1-frame and a 2-frame sequence merge into a 2-frame sequence. -/
theorem merge_length_and_hold_last_witness :
    ∃ out, merge_poses [frameWithPeople []] (some [frameWithPeople [], frameWithPeople []])
        none none none 512 768 = some out ∧
      out.length = merge_max_frames (merge_inputs [frameWithPeople []]
        (some [frameWithPeople [], frameWithPeople []]) none none none) ∧
      ∀ j, j < out.length →
        out[j]? = some (merge_expected_frame (merge_inputs [frameWithPeople []]
          (some [frameWithPeople [], frameWithPeople []]) none none none) 512 768 j) :=
  merge_length_and_hold_last [frameWithPeople []]
    (some [frameWithPeople [], frameWithPeople []]) none none none 512 768
    (by intro l hl; fin_cases hl <;> simp [merge_inputs])

/-! ## C3: attach anchor invariance -/

theorem getElem?_some_of_lt {α : Type} {l : List α} {n : Nat} {a : α}
    (h : l[n]? = some a) : n < l.length := by
  by_contra hc
  rw [List.getElem?_eq_none (by omega)] at h
  exact Option.noConfusion h

theorem getElem?_eq_some_getD (l : List ℚ) (n : Nat) (h : n < l.length) :
    l[n]? = some (l.getD n 0) := by
  rw [List.getElem?_eq_getElem h, List.getD_eq_getElem l 0 h]

/-- Reading one value of a person's body keypoint array. -/
def body_val (p : Person) (m : Nat) : Option ℚ :=
  match p.pose_keypoints_2d with
  | none => none
  | some l => l[m]?

theorem attach_body_go_length (att : List ℚ) (ox oy : ℚ) (idxs : List Nat)
    (nk : List ℚ) : (attach_body_go att ox oy idxs nk).length = nk.length := by
  induction idxs generalizing nk with
  | nil => rfl
  | cons idx rest ih =>
    simp only [attach_body_go]
    split <;> try (exact ih nk)
    split
    · rw [ih]; simp
    · exact ih nk

theorem attach_body_go_not_mem (att : List ℚ) (ox oy : ℚ) (idxs : List Nat)
    (nk : List ℚ) (m : Nat) (h : m / 3 ∉ idxs) :
    (attach_body_go att ox oy idxs nk)[m]? = nk[m]? := by
  induction idxs generalizing nk with
  | nil => rfl
  | cons idx rest ih =>
    have hne : idx ≠ m / 3 := fun he => h (by simp [he])
    have hrest : m / 3 ∉ rest := fun he => h (by simp [he])
    simp only [attach_body_go]
    split
    · split
      · rw [ih _ hrest]
        rw [List.getElem?_set_ne (by omega), List.getElem?_set_ne (by omega),
          List.getElem?_set_ne (by omega)]
      · exact ih nk hrest
    · exact ih nk hrest

theorem attach_body_go_at_mem (att : List ℚ) (ox oy : ℚ) (idxs : List Nat)
    (nk : List ℚ) (a : Nat) (ha : a ∈ idxs) (h1 : a * 3 + 2 < att.length)
    (h2 : a * 3 + 2 < nk.length) :
    (attach_body_go att ox oy idxs nk)[a * 3]? = some (att.getD (a * 3) 0 + ox) ∧
    (attach_body_go att ox oy idxs nk)[a * 3 + 1]? = some (att.getD (a * 3 + 1) 0 + oy) ∧
    (attach_body_go att ox oy idxs nk)[a * 3 + 2]? = some (att.getD (a * 3 + 2) 0) := by
  induction idxs generalizing nk with
  | nil => simp at ha
  | cons idx rest ih =>
    simp only [attach_body_go]
    by_cases hm : a ∈ rest
    · have hlen : ∀ nk1 : List ℚ, nk1.length = nk.length →
          a * 3 + 2 < nk1.length := fun nk1 he => by omega
      split
      · split
        · exact ih _ hm (by simp; omega)
        · exact ih nk hm h2
      · exact ih nk hm h2
    · have hidx : idx = a := by
        rcases List.mem_cons.mp ha with h | h
        · exact h.symm
        · exact absurd h hm
      subst hidx
      have hg1 : idx * 3 + 2 < att.length := h1
      rw [if_pos hg1, if_pos h2]
      have hset := attach_body_go_not_mem att ox oy rest
        (((nk.set (idx * 3) (att.getD (idx * 3) 0 + ox)).set (idx * 3 + 1)
          (att.getD (idx * 3 + 1) 0 + oy)).set (idx * 3 + 2) (att.getD (idx * 3 + 2) 0))
      refine ⟨?_, ?_, ?_⟩
      · rw [hset _ (by
          have he : idx * 3 / 3 = idx := by omega
          rw [he]; exact hm)]
        rw [List.getElem?_set_ne (by omega), List.getElem?_set_ne (by omega)]
        exact List.getElem?_set_self (by omega)
      · rw [hset _ (by
          have he : (idx * 3 + 1) / 3 = idx := by omega
          rw [he]; exact hm)]
        rw [List.getElem?_set_ne (by omega)]
        exact List.getElem?_set_self (by simp only [List.length_set]; omega)
      · rw [hset _ (by
          have he : (idx * 3 + 2) / 3 = idx := by omega
          rw [he]; exact hm)]
        exact List.getElem?_set_self (by simp only [List.length_set]; omega)

theorem get_keypoint_pos_some (kps : List ℚ) (k : Nat) (x y : ℚ)
    (h : get_keypoint_pos kps k = some (x, y)) :
    k * 3 + 2 < kps.length ∧ 0 < kps.getD (k * 3 + 2) 0 ∧
      x = kps.getD (k * 3) 0 ∧ y = kps.getD (k * 3 + 1) 0 := by
  simp only [get_keypoint_pos] at h
  split_ifs at h with h1 h2
  simp only [Option.some.injEq, Prod.mk.injEq] at h
  exact ⟨by omega, by linarith, h.1.symm, h.2.symm⟩

theorem mem_collect_conf_indices (att : List ℚ) (a : Nat)
    (h1 : a * 3 + 2 < att.length) (h2 : 0 < att.getD (a * 3 + 2) 0) :
    a ∈ collect_conf_indices att := by
  unfold collect_conf_indices
  rw [List.mem_filterMap]
  refine ⟨a * 3, mem_pyRange3.mpr ⟨by omega, by omega⟩, ?_⟩
  rw [if_pos ⟨h1, h2⟩]
  congr 1
  omega

theorem attach_hands_face_pose (p ap : Person) (ox oy : ℚ) (dh df : Bool) :
    (attach_hands_face p ap ox oy dh df).pose_keypoints_2d = p.pose_keypoints_2d := by
  unfold attach_hands_face
  cases dh <;> cases df <;>
    rcases ap.hand_left_keypoints_2d with _ | ⟨_ | ⟨a, l⟩⟩ <;>
    rcases ap.hand_right_keypoints_2d with _ | ⟨_ | ⟨b, m⟩⟩ <;>
    rcases ap.face_keypoints_2d with _ | ⟨_ | ⟨c, o⟩⟩ <;>
    rfl

/-- `_attach_keypoints` passes the base person through when either body
array is empty/missing or either anchor read fails. -/
theorem attach_keypoints_eq_skip (bp ap : Person) (anchor : Nat)
    (sel : Option Selection) (ah af : Bool)
    (h : (bp.pose_keypoints_2d.getD [] = [] ∨ ap.pose_keypoints_2d.getD [] = []) ∨
      get_keypoint_pos (bp.pose_keypoints_2d.getD []) anchor = none ∨
      get_keypoint_pos (ap.pose_keypoints_2d.getD []) anchor = none) :
    attach_keypoints bp ap anchor sel ah af = bp := by
  rcases h with h | h | h
  · simp only [attach_keypoints, if_pos h]
  · simp only [attach_keypoints]
    split
    · rfl
    · rw [h]
  · simp only [attach_keypoints]
    split
    · rfl
    · rw [h]
      split <;> first | rfl | simp_all

/-- `_attach_keypoints` in the attaching case. -/
theorem attach_keypoints_eq_attach (bp ap : Person) (anchor : Nat)
    (sel : Option Selection) (ah af : Bool) (bx by_ ax ay : ℚ)
    (hne : ¬(bp.pose_keypoints_2d.getD [] = [] ∨ ap.pose_keypoints_2d.getD [] = []))
    (hgb : get_keypoint_pos (bp.pose_keypoints_2d.getD []) anchor = some (bx, by_))
    (hga : get_keypoint_pos (ap.pose_keypoints_2d.getD []) anchor = some (ax, ay)) :
    attach_keypoints bp ap anchor sel ah af =
      attach_hands_face
        { bp with pose_keypoints_2d := some (attach_body_go (ap.pose_keypoints_2d.getD [])
            (bx - ax) (by_ - ay) (attach_indices sel (ap.pose_keypoints_2d.getD []))
            (bp.pose_keypoints_2d.getD [])) }
        ap (bx - ax) (by_ - ay) (attach_do_hands sel ah) (attach_do_face sel af) := by
  simp only [attach_keypoints, if_neg hne, hgb, hga]

/-- The anchor keypoint after `_attach_keypoints`: its x/y are unchanged
whenever it is outside the supplied selection or no selection is given,
and its confidence is unchanged except that with no selection it is
overwritten by the attachment person's anchor confidence. -/
theorem attach_keypoints_anchor (bp ap : Person) (anchor : Nat)
    (sel : Option Selection) (ah af : Bool)
    (hsel : sel = none ∨ ∃ s, sel = some s ∧ anchor ∉ s.body_indices) :
    body_val (attach_keypoints bp ap anchor sel ah af) (anchor * 3) = body_val bp (anchor * 3) ∧
    body_val (attach_keypoints bp ap anchor sel ah af) (anchor * 3 + 1) = body_val bp (anchor * 3 + 1) ∧
    (body_val (attach_keypoints bp ap anchor sel ah af) (anchor * 3 + 2) = body_val bp (anchor * 3 + 2) ∨
      (sel = none ∧ body_val (attach_keypoints bp ap anchor sel ah af) (anchor * 3 + 2) =
        body_val ap (anchor * 3 + 2))) := by
  by_cases hemp : bp.pose_keypoints_2d.getD [] = [] ∨ ap.pose_keypoints_2d.getD [] = []
  · rw [attach_keypoints_eq_skip bp ap anchor sel ah af (Or.inl hemp)]
    exact ⟨rfl, rfl, Or.inl rfl⟩
  case neg =>
  push_neg at hemp
  obtain ⟨hbne, hane⟩ := hemp
  rcases hgb : get_keypoint_pos (bp.pose_keypoints_2d.getD []) anchor with _ | ⟨bx, by_⟩
  · rw [attach_keypoints_eq_skip bp ap anchor sel ah af (Or.inr (Or.inl hgb))]
    exact ⟨rfl, rfl, Or.inl rfl⟩
  rcases hga : get_keypoint_pos (ap.pose_keypoints_2d.getD []) anchor with _ | ⟨ax, ay⟩
  · rw [attach_keypoints_eq_skip bp ap anchor sel ah af (Or.inr (Or.inr hga))]
    exact ⟨rfl, rfl, Or.inl rfl⟩
  rw [attach_keypoints_eq_attach bp ap anchor sel ah af bx by_ ax ay
    (fun h => absurd h (by simp [hbne, hane])) hgb hga]
  obtain ⟨hb1, hb2, hbx, hby⟩ := get_keypoint_pos_some _ _ _ _ hgb
  obtain ⟨ha1, ha2, hax, hay⟩ := get_keypoint_pos_some _ _ _ _ hga
  obtain ⟨bl, hbl⟩ : ∃ bl, bp.pose_keypoints_2d = some bl := by
    rcases hp : bp.pose_keypoints_2d with _ | bl
    · exact absurd (by simp [hp]) hbne
    · exact ⟨bl, rfl⟩
  have hblv : bp.pose_keypoints_2d.getD [] = bl := by rw [hbl]; rfl
  obtain ⟨al, hal⟩ : ∃ al, ap.pose_keypoints_2d = some al := by
    rcases hp : ap.pose_keypoints_2d with _ | al
    · exact absurd (by simp [hp]) hane
    · exact ⟨al, rfl⟩
  have halv : ap.pose_keypoints_2d.getD [] = al := by rw [hal]; rfl
  rw [hblv] at hgb hb1 hb2 hbx hby
  rw [halv] at hga ha1 ha2 hax hay ⊢
  rw [hblv] at *
  have hpose : (attach_hands_face
      { bp with pose_keypoints_2d := some (attach_body_go al (bx - ax) (by_ - ay)
          (attach_indices sel al) bl) } ap (bx - ax) (by_ - ay)
      (attach_do_hands sel ah) (attach_do_face sel af)).pose_keypoints_2d =
      some (attach_body_go al (bx - ax) (by_ - ay) (attach_indices sel al) bl) := by
    rw [attach_hands_face_pose]
  rcases hsel with hsn | ⟨s, hss, hmem⟩
  · subst hsn
    have hmema : anchor ∈ attach_indices none al :=
      mem_collect_conf_indices al anchor ha1 ha2
    obtain ⟨e0, e1, e2⟩ := attach_body_go_at_mem al (bx - ax) (by_ - ay)
      (attach_indices none al) bl anchor hmema ha1 hb1
    refine ⟨?_, ?_, Or.inr ⟨rfl, ?_⟩⟩
    · simp only [body_val, hpose, hbl]
      rw [e0, hax, hbx]
      rw [getElem?_eq_some_getD bl (anchor * 3) (by omega)]
      congr 1
      ring
    · simp only [body_val, hpose, hbl]
      rw [e1, hay, hby]
      rw [getElem?_eq_some_getD bl (anchor * 3 + 1) (by omega)]
      congr 1
      ring
    · simp only [body_val, hpose, hal]
      rw [e2, getElem?_eq_some_getD al (anchor * 3 + 2) ha1]
  · subst hss
    have hnm : ∀ m, m / 3 = anchor →
        (attach_body_go al (bx - ax) (by_ - ay) (attach_indices (some s) al) bl)[m]? = bl[m]? := by
      intro m hm
      exact attach_body_go_not_mem al (bx - ax) (by_ - ay) _ bl m (by
        simp only [attach_indices, hm]
        exact hmem)
    refine ⟨?_, ?_, Or.inl ?_⟩
    · simp only [body_val, hpose, hbl]
      exact hnm (anchor * 3) (by omega)
    · simp only [body_val, hpose, hbl]
      exact hnm (anchor * 3 + 1) (by omega)
    · simp only [body_val, hpose, hbl]
      exact hnm (anchor * 3 + 2) (by omega)

/-- Reading the person at index `n` of a frame. -/
def frame_person (fr : Frame) (n : Nat) : Option Person :=
  match fr.people with
  | none => none
  | some ppl => ppl[n]?

theorem attach_frame_person (anchor : Nat) (sel : Option Selection)
    (bIdx aIdx : Nat) (ah af : Bool) (bf afr : Frame) (q : Person)
    (hq : frame_person (attach_frame anchor sel bIdx aIdx ah af bf afr) bIdx = some q) :
    ∃ p, frame_person bf bIdx = some p ∧
      (q = p ∨ ∃ ap, frame_person afr aIdx = some ap ∧
        q = attach_keypoints p ap anchor sel ah af) := by
  unfold attach_frame at hq
  split at hq
  · rename_i bppl appl hbp hap
    split_ifs at hq with h1 h2
    · exact ⟨q, hq, Or.inl rfl⟩
    · exact ⟨q, hq, Or.inl rfl⟩
    · push_neg at h1 h2
      rcases hbe : bppl[bIdx]? with _ | bp
      · exfalso
        rw [List.getElem?_eq_getElem h1] at hbe
        exact Option.noConfusion hbe
      rcases hae : appl[aIdx]? with _ | ap
      · exfalso
        rw [List.getElem?_eq_getElem h2] at hae
        exact Option.noConfusion hae
      rw [hbe, hae] at hq
      simp only [frame_person, List.getElem?_set_self h1] at hq
      refine ⟨bp, by simp [frame_person, hbp, hbe], Or.inr ⟨ap, ?_, ?_⟩⟩
      · simp only [frame_person, hap]
        exact hae
      · exact (Option.some.injEq _ _ ▸ hq).symm
  · exact ⟨q, hq, Or.inl rfl⟩

theorem attach_frames_go_char (base att : List Frame) (anchor : Nat)
    (sel : Option Selection) (bIdx aIdx : Nat) (ah af : Bool)
    (js : List Nat) (out : List Frame)
    (h : attach_frames_go base att anchor sel bIdx aIdx ah af js = some out) :
    out.length = js.length ∧
    ∀ (k j : Nat), js[k]? = some j →
      ∃ bf afr, base[j % base.length]? = some bf ∧ att[j % att.length]? = some afr ∧
        out[k]? = some (attach_frame anchor sel bIdx aIdx ah af bf afr) := by
  induction js generalizing out with
  | nil =>
    simp only [attach_frames_go, Option.some.injEq] at h
    subst h
    refine ⟨rfl, ?_⟩
    intro k j hk
    simp at hk
  | cons j0 rest ih =>
    simp only [attach_frames_go] at h
    rcases hb : base[j0 % base.length]? with _ | bf
    · rw [hb] at h; exact Option.noConfusion h
    rcases ha : att[j0 % att.length]? with _ | afr
    · rw [hb, ha] at h; exact Option.noConfusion h
    rw [hb, ha] at h
    rcases hrec : attach_frames_go base att anchor sel bIdx aIdx ah af rest with _ | out1
    · rw [hrec] at h; exact Option.noConfusion h
    rw [hrec] at h
    simp only [Option.some.injEq] at h
    subst h
    obtain ⟨hlen, hall⟩ := ih out1 hrec
    refine ⟨by simp [hlen], ?_⟩
    intro k j hk
    cases k with
    | zero =>
      simp only [List.getElem?_cons_zero, Option.some.injEq] at hk
      subst hk
      exact ⟨bf, afr, hb, ha, by simp⟩
    | succ k1 =>
      simp only [List.getElem?_cons_succ] at hk
      obtain ⟨bf1, afr1, hb1, ha1, ho1⟩ := hall k1 j hk
      exact ⟨bf1, afr1, hb1, ha1, by simpa using ho1⟩

/-- **C3** (amended).  After `attach_pose`, the base person's anchor
keypoint keeps its x and y coordinates whenever the anchor is not in a
supplied selection (including when no selection is supplied); its
confidence is also kept when a selection is supplied, but with no
selection it may be overwritten with the attachment person's anchor
confidence (the anchor is then itself in the transplant set). -/
theorem attach_pose_anchor_invariance (base att : List Frame) (anchor : Nat)
    (sel : Option Selection) (bIdx aIdx : Nat) (ah af : Bool) (out : List Frame)
    (hsel : sel = none ∨ ∃ s, sel = some s ∧ anchor ∉ s.body_indices)
    (h : attach_pose base att anchor sel bIdx aIdx ah af = some out)
    (j : Nat) (ofr bfr : Frame) (ho : out[j]? = some ofr)
    (hb : base[j % base.length]? = some bfr)
    (q : Person) (hq : frame_person ofr bIdx = some q) :
    ∃ p, frame_person bfr bIdx = some p ∧
      body_val q (anchor * 3) = body_val p (anchor * 3) ∧
      body_val q (anchor * 3 + 1) = body_val p (anchor * 3 + 1) ∧
      (body_val q (anchor * 3 + 2) = body_val p (anchor * 3 + 2) ∨
        (sel = none ∧ ∃ afr ap, att[j % att.length]? = some afr ∧
          frame_person afr aIdx = some ap ∧
          body_val q (anchor * 3 + 2) = body_val ap (anchor * 3 + 2))) := by
  obtain ⟨hlen, hall⟩ := attach_frames_go_char base att anchor sel bIdx aIdx ah af _ out h
  have hj : j < out.length := getElem?_some_of_lt ho
  have hjr : (List.range (max base.length att.length))[j]? = some j := by
    rw [List.getElem?_range]
    rwa [hlen, List.length_range] at hj
  obtain ⟨bf, afr, hb1, ha1, ho1⟩ := hall j j hjr
  rw [hb1] at hb
  obtain rfl : bf = bfr := Option.some.injEq _ _ ▸ hb
  rw [ho] at ho1
  obtain rfl : ofr = attach_frame anchor sel bIdx aIdx ah af bf afr :=
    (Option.some.injEq _ _ ▸ ho1)
  obtain ⟨p, hp, hqp⟩ := attach_frame_person anchor sel bIdx aIdx ah af bf afr q hq
  rcases hqp with heq | ⟨ap, hap, heq⟩
  · exact ⟨p, hp, by rw [heq], by rw [heq], Or.inl (by rw [heq])⟩
  · obtain ⟨e0, e1, e2⟩ := attach_keypoints_anchor p ap anchor sel ah af hsel
    rw [← heq] at e0 e1 e2
    refine ⟨p, hp, e0, e1, ?_⟩
    rcases e2 with e2 | ⟨hsn, e2⟩
    · exact Or.inl e2
    · exact Or.inr ⟨hsn, afr, ap, ha1, hap, e2⟩

/-- Concrete attach counterexample data: the base anchor keypoint is
`(10, 20, 1)`, the donor anchor keypoint `(5, 6, 2)`. -/
def cexBasePerson : Person := ⟨some [10, 20, 1], none, none, none⟩

def cexAttPerson : Person := ⟨some [5, 6, 2], none, none, none⟩

def cexOutPerson : Person := ⟨some [10, 20, 2], none, none, none⟩

def cexBaseFrame : Frame := ⟨some [cexBasePerson], 512, 768⟩

def cexAttFrame : Frame := ⟨some [cexAttPerson], 512, 768⟩

def cexOutFrame : Frame := ⟨some [cexOutPerson], 512, 768⟩

theorem attach_cex_eval :
    attach_pose [cexBaseFrame] [cexAttFrame] 0 none 0 0 false false =
      some [cexOutFrame] := by
  norm_num [attach_pose, attach_frames_go, attach_frame, attach_keypoints,
    attach_indices, attach_do_hands, attach_do_face, collect_conf_indices, pyRange3,
    get_keypoint_pos, attach_body_go, attach_hands_face, cexBaseFrame, cexAttFrame,
    cexBasePerson, cexAttPerson, cexOutFrame, cexOutPerson, List.range, List.range.loop]
  exact ⟨by simp, by simp⟩

/-- **C3** (counterexample to the unamended claim).  With no selection
supplied, `attach_pose` at anchor index 0 leaves the base anchor's x/y at
`(10, 20)` but replaces its confidence 1 by the donor's confidence 2: the
anchor triplet does not equal its pre-attach value. -/
theorem attach_pose_anchor_conf_cex :
    attach_pose [cexBaseFrame] [cexAttFrame] 0 none 0 0 false false =
      some [cexOutFrame] ∧
    (frame_person cexOutFrame 0).bind (fun q => body_val q 2) = some 2 ∧
    (frame_person cexBaseFrame 0).bind (fun p => body_val p 2) = some 1 ∧
    (2 : ℚ) ≠ 1 :=
  ⟨attach_cex_eval, by rfl, by rfl, by norm_num⟩

/-- Witness for `attach_pose_anchor_invariance` at the concrete
counterexample data: the amended conclusion holds there, through the
no-selection disjunct. -/
theorem attach_pose_anchor_invariance_witness :
    ∃ p, frame_person cexBaseFrame 0 = some p ∧
      body_val cexOutPerson 0 = body_val p 0 ∧
      body_val cexOutPerson 1 = body_val p 1 ∧
      (body_val cexOutPerson 2 = body_val p 2 ∨
        ((none : Option Selection) = none ∧ ∃ afr ap,
          [cexAttFrame][0 % [cexAttFrame].length]? = some afr ∧
          frame_person afr 0 = some ap ∧
          body_val cexOutPerson 2 = body_val ap 2)) :=
  attach_pose_anchor_invariance [cexBaseFrame] [cexAttFrame] 0 none 0 0 false false
    [cexOutFrame] (Or.inl rfl) attach_cex_eval 0 cexOutFrame cexBaseFrame
    (by rfl) (by rfl) cexOutPerson (by rfl)

/-! ## C6: filter idempotence -/

/-- The positions whose confidence the filter loop zeroes. -/
def zero_positions (keep : List Nat) (invert : Bool) (idxs : List Nat) : List Nat :=
  (idxs.filter (fun i => !((keep.contains (i / 3)) != invert))).map (· + 2)

theorem filter_keypoints_go_char (keep : List Nat) (invert : Bool)
    (idxs : List Nat) (l m : List ℚ)
    (h : filter_keypoints_go keep invert idxs l = some m) :
    m.length = l.length ∧
    (∀ pos ∈ zero_positions keep invert idxs, m[pos]? = some 0) ∧
    (∀ pos, pos ∉ zero_positions keep invert idxs → m[pos]? = l[pos]?) := by
  induction idxs generalizing l with
  | nil =>
    simp only [filter_keypoints_go, Option.some.injEq] at h
    subst h
    exact ⟨rfl, by simp [zero_positions], fun _ _ => rfl⟩
  | cons i rest ih =>
    simp only [filter_keypoints_go] at h
    by_cases hsk : ((keep.contains (i / 3)) != invert) = true
    · rw [if_pos hsk] at h
      have hzp : zero_positions keep invert (i :: rest) =
          zero_positions keep invert rest := by
        unfold zero_positions
        rw [List.filter_cons_of_neg (by simpa using hsk)]
      obtain ⟨h1, h2, h3⟩ := ih l h
      exact ⟨h1, by rw [hzp]; exact h2, fun pos hp => h3 pos (by rwa [hzp] at hp)⟩
    · rw [if_neg hsk] at h
      have hzp : zero_positions keep invert (i :: rest) =
          (i + 2) :: zero_positions keep invert rest := by
        unfold zero_positions
        rw [List.filter_cons_of_pos (by simpa using hsk), List.map_cons]
      rcases hset : pySet l (i + 2) 0 with _ | l1
      · rw [hset] at h; exact Option.noConfusion h
      rw [hset] at h
      simp only [pySet] at hset
      split_ifs at hset with hlt
      obtain rfl : l.set (i + 2) 0 = l1 := Option.some.injEq _ _ ▸ hset
      obtain ⟨h1, h2, h3⟩ := ih _ h
      rw [List.length_set] at h1
      refine ⟨h1, ?_, ?_⟩
      · intro pos hp
        rw [hzp] at hp
        rcases List.mem_cons.mp hp with heq | hp1
        · subst heq
          by_cases hpr : (i + 2) ∈ zero_positions keep invert rest
          · exact h2 _ hpr
          · rw [h3 _ hpr, List.getElem?_set_self hlt]
        · exact h2 pos hp1
      · intro pos hp
        rw [hzp] at hp
        simp only [List.mem_cons, not_or] at hp
        rw [h3 pos hp.2, List.getElem?_set_ne (fun he => hp.1 he.symm)]

theorem filter_keypoints_go_stable (keep : List Nat) (invert : Bool)
    (idxs : List Nat) (l : List ℚ)
    (h : ∀ pos ∈ zero_positions keep invert idxs, l[pos]? = some 0) :
    filter_keypoints_go keep invert idxs l = some l := by
  induction idxs with
  | nil => rfl
  | cons i rest ih =>
    simp only [filter_keypoints_go]
    by_cases hsk : ((keep.contains (i / 3)) != invert) = true
    · rw [if_pos hsk]
      exact ih (fun pos hp => h pos (by
        unfold zero_positions at hp ⊢
        rwa [List.filter_cons_of_neg (by simpa using hsk)]))
    · rw [if_neg hsk]
      have hzp : (i + 2) ∈ zero_positions keep invert (i :: rest) := by
        unfold zero_positions
        rw [List.filter_cons_of_pos (by simpa using hsk), List.map_cons]
        exact List.mem_cons_self _ _
      have h0 : l[i + 2]? = some 0 := h _ hzp
      have hlt : i + 2 < l.length := getElem?_some_of_lt h0
      have hset : pySet l (i + 2) 0 = some l := by
        rw [pySet, if_pos hlt, setGetSelf l (i + 2) 0 h0]
      rw [hset]
      exact ih (fun pos hp => h pos (by
        unfold zero_positions at hp ⊢
        rw [List.filter_cons_of_pos (by simpa using hsk), List.map_cons]
        exact List.mem_cons_of_mem _ hp))

theorem filter_keypoints_idem (kps : List ℚ) (keep : List Nat) (invert : Bool)
    (m : List ℚ) (h : filter_keypoints kps keep invert = some m) :
    filter_keypoints m keep invert = some m := by
  obtain ⟨h1, h2, _⟩ := filter_keypoints_go_char keep invert _ kps m h
  unfold filter_keypoints
  rw [h1]
  exact filter_keypoints_go_stable keep invert _ m h2

theorem zero_all_keypoints_go_idem (i : Nat) (l : List ℚ) :
    zero_all_keypoints_go i (zero_all_keypoints_go i l) = zero_all_keypoints_go i l := by
  induction l generalizing i with
  | nil => rfl
  | cons v rest ih =>
    simp only [zero_all_keypoints_go]
    by_cases hi : i % 3 = 2 <;> simp [hi, ih (i + 1)]

theorem zero_all_keypoints_idem (l : List ℚ) :
    zero_all_keypoints (zero_all_keypoints l) = zero_all_keypoints l :=
  zero_all_keypoints_go_idem 0 l

theorem filter_zero_groups_pose (sel : Selection) (invert : Bool) (p : Person) :
    (filter_zero_groups sel invert p).pose_keypoints_2d = p.pose_keypoints_2d := by
  obtain ⟨po, hl, hr, fa⟩ := p
  unfold filter_zero_groups
  split_ifs <;> rcases hl with _ | hl <;> rcases hr with _ | hr <;>
    rcases fa with _ | fa <;> rfl

theorem filter_zero_groups_idem (sel : Selection) (invert : Bool) (p : Person) :
    filter_zero_groups sel invert (filter_zero_groups sel invert p) =
      filter_zero_groups sel invert p := by
  obtain ⟨po, hl, hr, fa⟩ := p
  unfold filter_zero_groups
  split_ifs <;> rcases hl with _ | hl <;> rcases hr with _ | hr <;>
    rcases fa with _ | fa <;> simp_all [zero_all_keypoints_idem]

theorem person_pose_update_self (p : Person) (v : List ℚ)
    (h : p.pose_keypoints_2d = some v) :
    { p with pose_keypoints_2d := some v } = p := by
  obtain ⟨po, hl, hr, fa⟩ := p
  simp only [Person.mk.injEq, and_true]
  exact h.symm

theorem filter_person_idem (sel : Selection) (invert : Bool) (p q : Person)
    (h : filter_person sel invert p = some q) :
    filter_person sel invert q = some q := by
  unfold filter_person at h ⊢
  rcases hp : p.pose_keypoints_2d with _ | kps
  · simp only [hp, Option.some.injEq] at h
    subst h
    rw [filter_zero_groups_pose, hp, filter_zero_groups_idem]
  · simp only [hp] at h
    rcases hk : filter_keypoints kps sel.body_indices invert with _ | kps1
    · rw [hk] at h; exact Option.noConfusion h
    simp only [hk, Option.some.injEq] at h
    subst h
    have hqpose : (filter_zero_groups sel invert
        { p with pose_keypoints_2d := some kps1 }).pose_keypoints_2d = some kps1 := by
      rw [filter_zero_groups_pose]
    simp only [hqpose, filter_keypoints_idem kps sel.body_indices invert kps1 hk]
    rw [person_pose_update_self _ _ hqpose, filter_zero_groups_idem]

theorem edit_people_char (f : Person → Option Person) (ppl : List Person)
    (idxs : List Int) (out : List Person)
    (hpos : ∀ i ∈ idxs, 0 ≤ i) (hnd : idxs.Nodup)
    (h : edit_people f ppl idxs = some out) :
    out.length = ppl.length ∧
    (∀ n : Nat, (n : Int) ∉ idxs → out[n]? = ppl[n]?) ∧
    (∀ n : Nat, (n : Int) ∈ idxs → n < ppl.length →
      ∃ p p1, ppl[n]? = some p ∧ f p = some p1 ∧ out[n]? = some p1) := by
  induction idxs generalizing ppl out with
  | nil =>
    simp only [edit_people, Option.some.injEq] at h
    subst h
    refine ⟨rfl, fun _ _ => rfl, fun n hn => absurd hn (by simp)⟩
  | cons i rest ih =>
    have hi0 : 0 ≤ i := hpos i (by simp)
    have hposr : ∀ j ∈ rest, 0 ≤ j := fun j hj => hpos j (by simp [hj])
    have hndr : rest.Nodup := hnd.of_cons
    have hinr : i ∉ rest := (List.nodup_cons.mp hnd).1
    simp only [edit_people] at h
    split_ifs at h with hle
    · obtain ⟨h1, h2, h3⟩ := ih ppl out hposr hndr h
      refine ⟨h1, ?_, ?_⟩
      · intro n hn
        exact h2 n (fun hr => hn (by simp [hr]))
      · intro n hn hlt
        rcases List.mem_cons.mp hn with he | hr
        · exfalso
          rw [← he] at hle
          omega
        · exact h3 n hr hlt
    · push_neg at hle
      have hres : pyResolveIdx ppl.length i = some i.toNat := by
        simp only [pyResolveIdx, if_pos hi0]
        rw [if_pos hle]
      simp only [hres] at h
      have htlt : i.toNat < ppl.length := by omega
      rcases hget : ppl[i.toNat]? with _ | p
      · simp only [hget] at h
        exact Option.noConfusion h
      simp only [hget] at h
      rcases hf : f p with _ | p1
      · simp only [hf] at h
        exact Option.noConfusion h
      simp only [hf] at h
      obtain ⟨h1, h2, h3⟩ := ih _ out hposr hndr h
      rw [List.length_set] at h1
      have hcast : ((i.toNat : Int)) = i := Int.toNat_of_nonneg hi0
      refine ⟨h1, ?_, ?_⟩
      · intro n hn
        have hnr : (n : Int) ∉ rest := fun hr => hn (by simp [hr])
        have hni : n ≠ i.toNat := by
          intro he
          exact hn (by simp [he, hcast])
        rw [h2 n hnr, List.getElem?_set_ne (fun he => hni he.symm)]
      · intro n hn hlt
        rcases List.mem_cons.mp hn with he | hr
        · have hni : n = i.toNat := by omega
          subst hni
          refine ⟨p, p1, hget, hf, ?_⟩
          have hnr : ((i.toNat : Int)) ∉ rest := by rw [hcast]; exact hinr
          rw [h2 _ hnr, List.getElem?_set_self htlt]
        · have hni : n ≠ i.toNat := by
            intro he
            subst he
            rw [hcast] at hr
            exact hinr hr
          obtain ⟨p', p1', hg', hf', ho'⟩ := h3 n hr (by simpa using hlt)
          rw [List.getElem?_set_ne (fun he => hni he.symm)] at hg'
          exact ⟨p', p1', hg', hf', ho'⟩

theorem edit_people_stable (f : Person → Option Person) (ppl : List Person)
    (idxs : List Int) (hpos : ∀ i ∈ idxs, 0 ≤ i)
    (h : ∀ n : Nat, (n : Int) ∈ idxs → n < ppl.length →
      ∃ p, ppl[n]? = some p ∧ f p = some p) :
    edit_people f ppl idxs = some ppl := by
  induction idxs with
  | nil => rfl
  | cons i rest ih =>
    have hi0 : 0 ≤ i := hpos i (by simp)
    have hposr : ∀ j ∈ rest, 0 ≤ j := fun j hj => hpos j (by simp [hj])
    simp only [edit_people]
    split_ifs with hle
    · exact ih hposr (fun n hn hlt => h n (by simp [hn]) hlt)
    · push_neg at hle
      have hres : pyResolveIdx ppl.length i = some i.toNat := by
        simp only [pyResolveIdx, if_pos hi0]
        rw [if_pos hle]
      have htlt : i.toNat < ppl.length := by omega
      have hcast : ((i.toNat : Int)) = i := Int.toNat_of_nonneg hi0
      obtain ⟨p, hget, hf⟩ := h i.toNat (by rw [hcast]; simp) htlt
      simp only [hres, hget, hf, setGetSelf ppl i.toNat p hget]
      exact ih hposr (fun n hn hlt => h n (by simp [hn]) hlt)

theorem peopleToEdit_nonneg (count : Nat) (pI : Int) (h : -1 ≤ pI) :
    ∀ i ∈ peopleToEdit count pI, 0 ≤ i := by
  intro i hi
  unfold peopleToEdit at hi
  split_ifs at hi with he
  · obtain ⟨n, _, rfl⟩ := List.mem_map.mp hi
    exact Int.ofNat_nonneg n
  · simp only [List.mem_singleton] at hi
    subst hi
    omega

theorem peopleToEdit_nodup (count : Nat) (pI : Int) :
    (peopleToEdit count pI).Nodup := by
  unfold peopleToEdit
  split_ifs
  · refine (List.nodup_range count).map ?_
    intro a b hab
    exact Int.ofNat.inj hab
  · exact List.nodup_singleton pI

theorem frame_people_update_self (fr : Frame) (ppl : List Person)
    (h : fr.people = some ppl) : { fr with people := some ppl } = fr := by
  obtain ⟨po, cw, ch⟩ := fr
  simp only [Frame.mk.injEq, and_true]
  exact h.symm

theorem filter_frame_idem (sel : Selection) (pI : Int) (invert : Bool)
    (fr out : Frame) (hpI : -1 ≤ pI)
    (h : filter_frame sel pI invert fr = some out) :
    filter_frame sel pI invert out = some out := by
  unfold filter_frame at h ⊢
  rcases hp : fr.people with _ | ppl
  · simp only [hp, Option.some.injEq] at h
    subst h
    rw [hp]
  · simp only [hp] at h
    rcases he : edit_people (filter_person sel invert) ppl
        (peopleToEdit ppl.length pI) with _ | ppl1
    · rw [he] at h; exact Option.noConfusion h
    rw [he] at h
    simp only [Option.some.injEq] at h
    subst h
    obtain ⟨h1, h2, h3⟩ := edit_people_char _ ppl _ ppl1
      (peopleToEdit_nonneg _ pI hpI) (peopleToEdit_nodup _ pI) he
    simp only
    have hstab : edit_people (filter_person sel invert) ppl1
        (peopleToEdit ppl1.length pI) = some ppl1 := by
      rw [h1]
      refine edit_people_stable _ ppl1 _ (peopleToEdit_nonneg _ pI hpI) ?_
      intro n hn hlt
      rw [h1] at hlt
      obtain ⟨p, p1, _, hf, ho⟩ := h3 n hn hlt
      exact ⟨p1, ho, filter_person_idem sel invert p p1 hf⟩
    rw [hstab]

theorem optionMapList_idem {α : Type} (f : α → Option α) (l out : List α)
    (hf : ∀ a b, f a = some b → f b = some b)
    (h : optionMapList f l = some out) : optionMapList f out = some out := by
  induction l generalizing out with
  | nil =>
    simp only [optionMapList, Option.some.injEq] at h
    subst h
    rfl
  | cons a rest ih =>
    simp only [optionMapList] at h
    rcases ha : f a with _ | b
    · rw [ha] at h; exact Option.noConfusion h
    rcases hr : optionMapList f rest with _ | bs
    · rw [ha, hr] at h; exact Option.noConfusion h
    rw [ha, hr] at h
    simp only [Option.some.injEq] at h
    subst h
    simp only [optionMapList, hf a b ha, ih bs hr]

/-- **C6.**  `filter_pose` is idempotent: whenever a first application
succeeds, applying it again with the same selection, person index (the
node's domain `-1 ≤ person_index`) and invert flag returns the same
sequence unchanged. -/
theorem filter_pose_idempotent (seq : List Frame) (sel : Selection) (pI : Int)
    (invert : Bool) (out : List Frame) (hpI : -1 ≤ pI)
    (h : filter_pose seq sel pI invert = some out) :
    filter_pose out sel pI invert = some out :=
  optionMapList_idem _ seq out
    (fun fr ofr hfr => filter_frame_idem sel pI invert fr ofr hpI hfr) h

/-- Concrete filter witness data: one person with body keypoint 0 at
`(10, 20, 1)`, selection keeping only body index 5. -/
def witSel : Selection := ⟨[5], true, true, true⟩

def witInFrame : Frame := frameWithPeople [⟨some [10, 20, 1], none, none, none⟩]

def witOutFrame : Frame := frameWithPeople [⟨some [10, 20, 0], none, none, none⟩]

/-- Witness for `filter_pose_idempotent` at a concrete input: filtering the
already-filtered frame returns it unchanged. -/
theorem filter_pose_idempotent_witness :
    filter_pose [witOutFrame] witSel (-1) false = some [witOutFrame] :=
  filter_pose_idempotent [witInFrame] witSel (-1) false [witOutFrame]
    (by decide) (by rfl)

/-! ## C7: mover frame effect -/

/-- Reading one value of an optional keypoint array. -/
def kp_val (a : Option (List ℚ)) (m : Nat) : Option ℚ :=
  match a with
  | none => none
  | some l => l[m]?

/-- What the mover may do to one keypoint array: the array's presence and
length are preserved, every confidence channel is preserved, and an x/y
value changes only when its keypoint is in scope with positive
confidence. -/
def arr_move_effect (scopedAt : Nat → Bool) (old new : Option (List ℚ)) : Prop :=
  (old = none → new = none) ∧
  (∀ l, old = some l → ∃ l2, new = some l2 ∧ l2.length = l.length) ∧
  (∀ m, m % 3 = 2 → kp_val new m = kp_val old m) ∧
  (∀ m, ¬(scopedAt (m / 3) = true ∧
      ∃ c, kp_val old (3 * (m / 3) + 2) = some c ∧ 0 < c) →
    kp_val new m = kp_val old m)

theorem arr_move_effect_refl (scopedAt : Nat → Bool) (a : Option (List ℚ)) :
    arr_move_effect scopedAt a a :=
  ⟨fun h => h, fun l h => ⟨l, h, rfl⟩, fun _ _ => rfl, fun _ _ => rfl⟩

theorem apply_offset_go_preserve (indices : List Nat) (x y : ℚ)
    (idxs : List Nat) (l r : List ℚ) (hmul : ∀ i ∈ idxs, i % 3 = 0)
    (h : apply_offset_go indices x y idxs l = some r) :
    r.length = l.length ∧
    ∀ m, (m % 3 = 2 ∨ ¬(indices.contains (m / 3) = true ∧
        ∃ c, l[3 * (m / 3) + 2]? = some c ∧ 0 < c)) → r[m]? = l[m]? := by
  induction idxs generalizing l with
  | nil =>
    simp only [apply_offset_go, Option.some.injEq] at h
    subst h
    exact ⟨rfl, fun _ _ => rfl⟩
  | cons i rest ih =>
    have hi : i % 3 = 0 := hmul i (by simp)
    have hmulr : ∀ j ∈ rest, j % 3 = 0 := fun j hj => hmul j (by simp [hj])
    simp only [apply_offset_go] at h
    split_ifs at h with hc
    · rcases hconf : l[i + 2]? with _ | c
      · simp only [hconf] at h
        exact Option.noConfusion h
      simp only [hconf] at h
      split_ifs at h with hcpos
      · rcases hv : l[i]? with _ | v
        · simp only [pyAddAt, hv] at h
          exact Option.noConfusion h
        simp only [pyAddAt, hv] at h
        rcases hw : (l.set i (v + x))[i + 1]? with _ | w
        · simp only [hw] at h
          exact Option.noConfusion h
        simp only [hw] at h
        obtain ⟨h1, h2⟩ := ih _ hmulr h
        rw [List.length_set, List.length_set] at h1
        have hl2conf : ∀ m : Nat, ((l.set i (v + x)).set (i + 1) (w + y))[3 * (m / 3) + 2]? =
            l[3 * (m / 3) + 2]? := by
          intro m
          rw [List.getElem?_set_ne (by omega), List.getElem?_set_ne (by omega)]
        refine ⟨h1, ?_⟩
        intro m hm
        rcases hm with hm2 | hmneg
        · rw [h2 m (Or.inl hm2)]
          rw [List.getElem?_set_ne (by omega), List.getElem?_set_ne (by omega)]
        · have hcond2 : ¬(indices.contains (m / 3) = true ∧
              ∃ c, ((l.set i (v + x)).set (i + 1) (w + y))[3 * (m / 3) + 2]? = some c ∧ 0 < c) := by
            rw [hl2conf m]
            exact hmneg
          rw [h2 m (Or.inr hcond2)]
          by_cases hmi : m = i ∨ m = i + 1
          · exfalso
            have hdiv : m / 3 = i / 3 := by omega
            refine hmneg ⟨by rwa [hdiv], c, ?_, hcpos⟩
            have hpos : 3 * (m / 3) + 2 = i + 2 := by omega
            rw [hpos]
            exact hconf
          · push_neg at hmi
            rw [List.getElem?_set_ne (fun he => hmi.2 he.symm),
              List.getElem?_set_ne (fun he => hmi.1 he.symm)]
      · exact ih l hmulr h
    · exact ih l hmulr h

theorem apply_offset_all_go_preserve (x y : ℚ) (idxs : List Nat)
    (l r : List ℚ) (hmul : ∀ i ∈ idxs, i % 3 = 0)
    (h : apply_offset_all_go x y idxs l = some r) :
    r.length = l.length ∧
    ∀ m, (m % 3 = 2 ∨ ¬(∃ c, l[3 * (m / 3) + 2]? = some c ∧ 0 < c)) →
      r[m]? = l[m]? := by
  induction idxs generalizing l with
  | nil =>
    simp only [apply_offset_all_go, Option.some.injEq] at h
    subst h
    exact ⟨rfl, fun _ _ => rfl⟩
  | cons i rest ih =>
    have hi : i % 3 = 0 := hmul i (by simp)
    have hmulr : ∀ j ∈ rest, j % 3 = 0 := fun j hj => hmul j (by simp [hj])
    simp only [apply_offset_all_go] at h
    rcases hconf : l[i + 2]? with _ | c
    · simp only [hconf] at h
      exact Option.noConfusion h
    simp only [hconf] at h
    split_ifs at h with hcpos
    · rcases hv : l[i]? with _ | v
      · simp only [pyAddAt, hv] at h
        exact Option.noConfusion h
      simp only [pyAddAt, hv] at h
      rcases hw : (l.set i (v + x))[i + 1]? with _ | w
      · simp only [hw] at h
        exact Option.noConfusion h
      simp only [hw] at h
      obtain ⟨h1, h2⟩ := ih _ hmulr h
      rw [List.length_set, List.length_set] at h1
      have hl2conf : ∀ m : Nat, ((l.set i (v + x)).set (i + 1) (w + y))[3 * (m / 3) + 2]? =
          l[3 * (m / 3) + 2]? := by
        intro m
        rw [List.getElem?_set_ne (by omega), List.getElem?_set_ne (by omega)]
      refine ⟨h1, ?_⟩
      intro m hm
      rcases hm with hm2 | hmneg
      · rw [h2 m (Or.inl hm2)]
        rw [List.getElem?_set_ne (by omega), List.getElem?_set_ne (by omega)]
      · have hcond2 : ¬(∃ c, ((l.set i (v + x)).set (i + 1) (w + y))[3 * (m / 3) + 2]? =
            some c ∧ 0 < c) := by
          rw [hl2conf m]
          exact hmneg
        rw [h2 m (Or.inr hcond2)]
        by_cases hmi : m = i ∨ m = i + 1
        · exfalso
          refine hmneg ⟨c, ?_, hcpos⟩
          have hpos : 3 * (m / 3) + 2 = i + 2 := by omega
          rw [hpos]
          exact hconf
        · push_neg at hmi
          rw [List.getElem?_set_ne (fun he => hmi.2 he.symm),
            List.getElem?_set_ne (fun he => hmi.1 he.symm)]
    · exact ih l hmulr h

theorem arr_move_effect_of_body (l l2 : List ℚ) (indices : List Nat) (x y : ℚ)
    (h : apply_offset l indices x y = some l2) :
    arr_move_effect (fun k => indices.contains k) (some l) (some l2) := by
  obtain ⟨h1, h2⟩ := apply_offset_go_preserve indices x y _ l l2
    (fun i hi => (mem_pyRange3.mp hi).2) h
  refine ⟨fun he => Option.noConfusion he, ?_, ?_, ?_⟩
  · intro l' he
    obtain rfl : l = l' := Option.some.injEq _ _ ▸ he
    exact ⟨l2, rfl, h1⟩
  · intro m hm
    exact h2 m (Or.inl hm)
  · intro m hm
    exact h2 m (Or.inr hm)

theorem arr_move_effect_of_all (l l2 : List ℚ) (x y : ℚ)
    (h : apply_offset_all l x y = some l2) :
    arr_move_effect (fun _ => true) (some l) (some l2) := by
  obtain ⟨h1, h2⟩ := apply_offset_all_go_preserve x y _ l l2
    (fun i hi => (mem_pyRange3.mp hi).2) h
  refine ⟨fun he => Option.noConfusion he, ?_, ?_, ?_⟩
  · intro l' he
    obtain rfl : l = l' := Option.some.injEq _ _ ▸ he
    exact ⟨l2, rfl, h1⟩
  · intro m hm
    exact h2 m (Or.inl hm)
  · intro m hm
    refine h2 m (Or.inr ?_)
    intro hex
    exact hm ⟨rfl, hex⟩

theorem move_body_part_spec (indices : List Nat) (x y : ℚ) (p q : Person)
    (h : move_body_part indices x y p = some q) :
    arr_move_effect (fun k => indices.contains k) p.pose_keypoints_2d q.pose_keypoints_2d ∧
    q.hand_left_keypoints_2d = p.hand_left_keypoints_2d ∧
    q.hand_right_keypoints_2d = p.hand_right_keypoints_2d ∧
    q.face_keypoints_2d = p.face_keypoints_2d := by
  unfold move_body_part at h
  rcases hp : p.pose_keypoints_2d with _ | kps
  · simp only [hp, Option.some.injEq] at h
    subst h
    exact ⟨hp ▸ arr_move_effect_refl _ _, rfl, rfl, rfl⟩
  · simp only [hp] at h
    rcases ha : apply_offset kps indices x y with _ | kps1
    · simp only [ha] at h
      exact Option.noConfusion h
    simp only [ha, Option.some.injEq] at h
    subst h
    exact ⟨arr_move_effect_of_body kps kps1 indices x y ha, rfl, rfl, rfl⟩

theorem move_left_hand_part_spec (flag : Bool) (x y : ℚ) (p q : Person)
    (h : move_left_hand_part flag x y p = some q) :
    arr_move_effect (fun _ => flag) p.hand_left_keypoints_2d q.hand_left_keypoints_2d ∧
    q.pose_keypoints_2d = p.pose_keypoints_2d ∧
    q.hand_right_keypoints_2d = p.hand_right_keypoints_2d ∧
    q.face_keypoints_2d = p.face_keypoints_2d := by
  unfold move_left_hand_part at h
  cases flag with
  | false =>
    simp only [Option.some.injEq] at h
    subst h
    exact ⟨arr_move_effect_refl _ _, rfl, rfl, rfl⟩
  | true =>
    rcases hp : p.hand_left_keypoints_2d with _ | hl
    · simp only [hp, Option.some.injEq] at h
      subst h
      exact ⟨hp ▸ arr_move_effect_refl _ _, rfl, rfl, rfl⟩
    · simp only [hp] at h
      rcases ha : apply_offset_all hl x y with _ | hl1
      · simp only [ha] at h
        exact Option.noConfusion h
      simp only [ha, Option.some.injEq] at h
      subst h
      exact ⟨arr_move_effect_of_all hl hl1 x y ha, rfl, rfl, rfl⟩

theorem move_right_hand_part_spec (flag : Bool) (x y : ℚ) (p q : Person)
    (h : move_right_hand_part flag x y p = some q) :
    arr_move_effect (fun _ => flag) p.hand_right_keypoints_2d q.hand_right_keypoints_2d ∧
    q.pose_keypoints_2d = p.pose_keypoints_2d ∧
    q.hand_left_keypoints_2d = p.hand_left_keypoints_2d ∧
    q.face_keypoints_2d = p.face_keypoints_2d := by
  unfold move_right_hand_part at h
  cases flag with
  | false =>
    simp only [Option.some.injEq] at h
    subst h
    exact ⟨arr_move_effect_refl _ _, rfl, rfl, rfl⟩
  | true =>
    rcases hp : p.hand_right_keypoints_2d with _ | hr
    · simp only [hp, Option.some.injEq] at h
      subst h
      exact ⟨hp ▸ arr_move_effect_refl _ _, rfl, rfl, rfl⟩
    · simp only [hp] at h
      rcases ha : apply_offset_all hr x y with _ | hr1
      · simp only [ha] at h
        exact Option.noConfusion h
      simp only [ha, Option.some.injEq] at h
      subst h
      exact ⟨arr_move_effect_of_all hr hr1 x y ha, rfl, rfl, rfl⟩

theorem move_face_part_spec (flag : Bool) (x y : ℚ) (p q : Person)
    (h : move_face_part flag x y p = some q) :
    arr_move_effect (fun _ => flag) p.face_keypoints_2d q.face_keypoints_2d ∧
    q.pose_keypoints_2d = p.pose_keypoints_2d ∧
    q.hand_left_keypoints_2d = p.hand_left_keypoints_2d ∧
    q.hand_right_keypoints_2d = p.hand_right_keypoints_2d := by
  unfold move_face_part at h
  cases flag with
  | false =>
    simp only [Option.some.injEq] at h
    subst h
    exact ⟨arr_move_effect_refl _ _, rfl, rfl, rfl⟩
  | true =>
    rcases hp : p.face_keypoints_2d with _ | fa
    · simp only [hp, Option.some.injEq] at h
      subst h
      exact ⟨hp ▸ arr_move_effect_refl _ _, rfl, rfl, rfl⟩
    · simp only [hp] at h
      rcases ha : apply_offset_all fa x y with _ | fa1
      · simp only [ha] at h
        exact Option.noConfusion h
      simp only [ha, Option.some.injEq] at h
      subst h
      exact ⟨arr_move_effect_of_all fa fa1 x y ha, rfl, rfl, rfl⟩

theorem move_person_effect (scope : MoverScope) (x y : ℚ) (p q : Person)
    (h : move_person scope x y p = some q) :
    arr_move_effect (fun k => scope.body_indices.contains k)
      p.pose_keypoints_2d q.pose_keypoints_2d ∧
    arr_move_effect (fun _ => scope.move_left_hand)
      p.hand_left_keypoints_2d q.hand_left_keypoints_2d ∧
    arr_move_effect (fun _ => scope.move_right_hand)
      p.hand_right_keypoints_2d q.hand_right_keypoints_2d ∧
    arr_move_effect (fun _ => scope.move_face)
      p.face_keypoints_2d q.face_keypoints_2d := by
  unfold move_person at h
  rcases h1 : move_body_part scope.body_indices x y p with _ | q1
  · simp only [h1] at h
    exact Option.noConfusion h
  simp only [h1] at h
  rcases h2 : move_left_hand_part scope.move_left_hand x y q1 with _ | q2
  · simp only [h2] at h
    exact Option.noConfusion h
  simp only [h2] at h
  rcases h3 : move_right_hand_part scope.move_right_hand x y q2 with _ | q3
  · simp only [h3] at h
    exact Option.noConfusion h
  simp only [h3] at h
  obtain ⟨e1, f1l, f1r, f1f⟩ := move_body_part_spec _ x y p q1 h1
  obtain ⟨e2, f2p, f2r, f2f⟩ := move_left_hand_part_spec _ x y q1 q2 h2
  obtain ⟨e3, f3p, f3l, f3f⟩ := move_right_hand_part_spec _ x y q2 q3 h3
  obtain ⟨e4, f4p, f4l, f4r⟩ := move_face_part_spec _ x y q3 q h
  refine ⟨?_, ?_, ?_, ?_⟩
  · rw [f4p, f3p, f2p]
    exact e1
  · rw [f4l, f3l]
    rw [f1l] at e2
    exact e2
  · rw [f4r]
    rw [f2r, f1r] at e3
    exact e3
  · rw [f3f, f2f, f1f] at e4
    exact e4

theorem mem_peopleToEdit (count : Nat) (pI : Int) (n : Nat) :
    ((n : Int) ∈ peopleToEdit count pI) ↔
      ((pI = -1 ∧ n < count) ∨ (n : Int) = pI) := by
  unfold peopleToEdit
  split_ifs with he
  · subst he
    simp only [List.mem_map, List.mem_range]
    constructor
    · rintro ⟨m, hm, hcast⟩
      have hmn : m = n := Int.ofNat.inj hcast
      subst hmn
      exact Or.inl ⟨trivial, hm⟩
    · rintro (⟨_, hlt⟩ | hc)
      · exact ⟨n, hlt, rfl⟩
      · exact absurd hc (by omega)
  · simp [he]

/-- What the mover may do to one frame, per targeted person: canvas
dimensions preserved, people-less frames passed through whole, untargeted
people unchanged, and every targeted person's four keypoint arrays changed
only as `arr_move_effect` allows. -/
def frame_move_effect (scope : MoverScope) (pI : Int) (fr ofr : Frame) : Prop :=
  ofr.canvas_width = fr.canvas_width ∧ ofr.canvas_height = fr.canvas_height ∧
  (fr.people = none → ofr = fr) ∧
  ∀ ppl, fr.people = some ppl → ∃ ppl1, ofr.people = some ppl1 ∧
    ppl1.length = ppl.length ∧
    ∀ (n : Nat) (p q : Person), ppl[n]? = some p → ppl1[n]? = some q →
      ((¬(pI = -1 ∨ pI = (n : Int))) → q = p) ∧
      ((pI = -1 ∨ pI = (n : Int)) →
        arr_move_effect (fun k => scope.body_indices.contains k)
          p.pose_keypoints_2d q.pose_keypoints_2d ∧
        arr_move_effect (fun _ => scope.move_left_hand)
          p.hand_left_keypoints_2d q.hand_left_keypoints_2d ∧
        arr_move_effect (fun _ => scope.move_right_hand)
          p.hand_right_keypoints_2d q.hand_right_keypoints_2d ∧
        arr_move_effect (fun _ => scope.move_face)
          p.face_keypoints_2d q.face_keypoints_2d)

theorem frame_move_effect_of_edit (scope : MoverScope) (pI : Int) (cx cy : ℚ)
    (fr : Frame) (ppl ppl1 : List Person) (hpI : -1 ≤ pI)
    (hp : fr.people = some ppl)
    (he : edit_people (move_person scope cx cy) ppl
      (peopleToEdit ppl.length pI) = some ppl1) :
    frame_move_effect scope pI fr { fr with people := some ppl1 } := by
  obtain ⟨h1, h2, h3⟩ := edit_people_char _ ppl _ ppl1
    (peopleToEdit_nonneg _ pI hpI) (peopleToEdit_nodup _ pI) he
  refine ⟨rfl, rfl, ?_, ?_⟩
  · intro hnone
    rw [hp] at hnone
    exact Option.noConfusion hnone
  · intro ppl' hp'
    rw [hp] at hp'
    obtain rfl : ppl = ppl' := Option.some.injEq _ _ ▸ hp'
    refine ⟨ppl1, rfl, h1, ?_⟩
    intro n p q hpn hqn
    have hnlt : n < ppl.length := getElem?_some_of_lt hpn
    constructor
    · intro hnt
      have hnm : (n : Int) ∉ peopleToEdit ppl.length pI := by
        rw [mem_peopleToEdit]
        push_neg at hnt ⊢
        exact ⟨fun he1 => absurd he1 hnt.1, fun he1 => hnt.2 he1.symm⟩
      rw [h2 n hnm, hpn] at hqn
      exact (Option.some.injEq _ _ ▸ hqn).symm
    · intro hnt
      have hnm : (n : Int) ∈ peopleToEdit ppl.length pI := by
        rw [mem_peopleToEdit]
        rcases hnt with he1 | he1
        · exact Or.inl ⟨he1, hnlt⟩
        · exact Or.inr he1.symm
      obtain ⟨p', p1, hg', hf', ho'⟩ := h3 n hnm hnlt
      rw [hpn] at hg'
      obtain rfl : p = p' := Option.some.injEq _ _ ▸ hg'
      rw [ho'] at hqn
      obtain rfl : p1 = q := Option.some.injEq _ _ ▸ hqn
      exact move_person_effect scope cx cy p p1 hf'

theorem move_frames_effect (scope : MoverScope) (pI : Int) (xs ys : List ℚ)
    (hpI : -1 ≤ pI) :
    ∀ (i : Nat) (frames out : List Frame),
      move_frames scope pI xs ys i frames = some out →
      out.length = frames.length ∧
      ∀ (j : Nat) (fr ofr : Frame), frames[j]? = some fr → out[j]? = some ofr →
        frame_move_effect scope pI fr ofr := by
  intro i frames
  induction frames generalizing i with
  | nil =>
    intro out h
    simp only [move_frames, Option.some.injEq] at h
    subst h
    refine ⟨rfl, ?_⟩
    intro j fr ofr hf
    simp at hf
  | cons fr0 rest ih =>
    intro out h
    simp only [move_frames] at h
    rcases hp : fr0.people with _ | ppl
    · simp only [hp] at h
      rcases hr : move_frames scope pI xs ys (i + 1) rest with _ | out1
      · simp only [hr] at h
        exact Option.noConfusion h
      simp only [hr, Option.some.injEq] at h
      subst h
      obtain ⟨h1, h2⟩ := ih (i + 1) out1 hr
      refine ⟨by simp [h1], ?_⟩
      intro j fr ofr hf ho
      cases j with
      | zero =>
        simp only [List.getElem?_cons_zero, Option.some.injEq] at hf ho
        subst hf
        subst ho
        exact ⟨rfl, rfl, fun _ => rfl, fun ppl hpp => absurd (hp ▸ hpp) (by simp)⟩
      | succ j1 =>
        simp only [List.getElem?_cons_succ] at hf ho
        exact h2 j1 fr ofr hf ho
    · simp only [hp] at h
      rcases hx : xs[i]? with _ | cx
      · simp only [hx] at h
        exact Option.noConfusion h
      rcases hy : ys[i]? with _ | cy
      · simp only [hx, hy] at h
        exact Option.noConfusion h
      simp only [hx, hy] at h
      rcases he : edit_people (move_person scope cx cy) ppl
          (peopleToEdit ppl.length pI) with _ | ppl1
      · simp only [he] at h
        exact Option.noConfusion h
      simp only [he] at h
      rcases hr : move_frames scope pI xs ys (i + 1) rest with _ | out1
      · simp only [hr] at h
        exact Option.noConfusion h
      simp only [hr, Option.some.injEq] at h
      subst h
      obtain ⟨h1, h2⟩ := ih (i + 1) out1 hr
      refine ⟨by simp [h1], ?_⟩
      intro j fr ofr hf ho
      cases j with
      | zero =>
        simp only [List.getElem?_cons_zero, Option.some.injEq] at hf ho
        subst hf
        subst ho
        exact frame_move_effect_of_edit scope pI cx cy fr0 ppl ppl1 hpI hp he
      | succ j1 =>
        simp only [List.getElem?_cons_succ] at hf ho
        exact h2 j1 fr ofr hf ho

/-- **C7.**  Whenever `move_keypoints` succeeds, it preserves sequence
length and canvas dimensions, passes people-less frames and untargeted
people through unchanged, never changes any keypoint's confidence value in
any of the four arrays, and changes a keypoint's x/y only when that
keypoint is in scope (selected body index, or a hand/face group whose gate
is on) with positive confidence. -/
theorem move_keypoints_frame_effect (seq : List Frame) (x y : PyFloatOrList)
    (sel : Option Selection) (appendage_type : String) (pI : Int)
    (behavior : String) (ah af : Bool) (out : List Frame) (hpI : -1 ≤ pI)
    (h : move_keypoints seq x y sel appendage_type pI behavior ah af = some out) :
    out.length = seq.length ∧
    ∀ (j : Nat) (fr ofr : Frame), seq[j]? = some fr → out[j]? = some ofr →
      frame_move_effect (mover_scope sel appendage_type ah af) pI fr ofr := by
  unfold move_keypoints at h
  rcases hx : normalize_to_list x seq.length behavior with _ | xs
  · simp only [hx] at h
    exact Option.noConfusion h
  rcases hy : normalize_to_list y seq.length behavior with _ | ys
  · simp only [hx, hy] at h
    exact Option.noConfusion h
  simp only [hx, hy] at h
  exact move_frames_effect _ pI xs ys hpI 0 seq out h

/-- Concrete mover witness data: one person, keypoint 0 at `(10, 20, 1)`,
moved by `(5, -3)` under a selection of body index 0. -/
def moverWitSel : Selection := ⟨[0], false, false, false⟩

def moverWitIn : Frame := frameWithPeople [⟨some [10, 20, 1], none, none, none⟩]

def moverWitOut : Frame := frameWithPeople [⟨some [15, 17, 1], none, none, none⟩]

theorem mover_wit_eval :
    move_keypoints [moverWitIn] (.scalar 5) (.scalar (-3)) (some moverWitSel)
      "all" (-1) "loop" false false = some [moverWitOut] := by
  norm_num [move_keypoints, normalize_to_list, mover_scope, mover_left_hand_gate,
    mover_right_hand_gate, mover_face_gate, move_frames, edit_people, peopleToEdit,
    pyResolveIdx, move_person, move_body_part, move_left_hand_part,
    move_right_hand_part, move_face_part, apply_offset, apply_offset_go,
    apply_offset_all, pyRange3, pyAddAt, List.range, List.range.loop,
    moverWitSel, moverWitIn, moverWitOut, frameWithPeople]

/-- Witness for `move_keypoints_frame_effect` at a concrete input. -/
theorem move_keypoints_frame_effect_witness :
    [moverWitOut].length = [moverWitIn].length ∧
    frame_move_effect (mover_scope (some moverWitSel) "all" false false) (-1)
      moverWitIn moverWitOut := by
  obtain ⟨h1, h2⟩ := move_keypoints_frame_effect [moverWitIn] (.scalar 5)
    (.scalar (-3)) (some moverWitSel) "all" (-1) "loop" false false [moverWitOut]
    (by decide) mover_wit_eval
  exact ⟨h1, h2 0 moverWitIn moverWitOut rfl rfl⟩

/-! ## C4: temporal smoothing recurrence -/

theorem getD_set_ne (l : List ℚ) (a m : Nat) (v : ℚ) (h : m ≠ a) :
    (l.set a v).getD m 0 = l.getD m 0 := by
  rw [List.getD_eq_getElem?_getD, List.getD_eq_getElem?_getD,
    List.getElem?_set_ne (fun he => h he.symm)]

/-- The guard under which one body keypoint is smoothed. -/
def smooth_grd (prev cur : List ℚ) (k : Nat) : Prop :=
  3 * k + 2 < cur.length ∧ 3 * k + 2 < prev.length ∧
    0 < cur.getD (3 * k + 2) 0 ∧ 0 < prev.getD (3 * k + 2) 0

instance (prev cur : List ℚ) (k : Nat) : Decidable (smooth_grd prev cur k) := by
  unfold smooth_grd
  infer_instance

theorem smooth_body_go_char (prev : List ℚ) (f : ℚ) (idxs : List Nat)
    (hnd : idxs.Nodup) (cur : List ℚ) :
    (smooth_body_go prev f idxs cur).length = cur.length ∧
    (∀ m : Nat, (m % 3 = 2 ∨ (m / 3) ∉ idxs) →
      (smooth_body_go prev f idxs cur)[m]? = cur[m]?) ∧
    (∀ k ∈ idxs,
      (smooth_grd prev cur k →
        (smooth_body_go prev f idxs cur)[3 * k]? =
          some (smooth_value (prev.getD (3 * k) 0) (cur.getD (3 * k) 0) f) ∧
        (smooth_body_go prev f idxs cur)[3 * k + 1]? =
          some (smooth_value (prev.getD (3 * k + 1) 0) (cur.getD (3 * k + 1) 0) f)) ∧
      (¬smooth_grd prev cur k →
        (smooth_body_go prev f idxs cur)[3 * k]? = cur[3 * k]? ∧
        (smooth_body_go prev f idxs cur)[3 * k + 1]? = cur[3 * k + 1]?)) := by
  induction idxs generalizing cur with
  | nil =>
    refine ⟨rfl, fun _ _ => rfl, ?_⟩
    intro k hk
    simp at hk
  | cons k0 rest ih =>
    have hk0r : k0 ∉ rest := (List.nodup_cons.mp hnd).1
    have hndr : rest.Nodup := hnd.of_cons
    have hstep : smooth_body_go prev f (k0 :: rest) cur =
        smooth_body_go prev f rest
          (if smooth_grd prev cur k0 then
            ((cur.set (3 * k0) (smooth_value (prev.getD (3 * k0) 0) (cur.getD (3 * k0) 0) f)).set
              (3 * k0 + 1) (smooth_value (prev.getD (3 * k0 + 1) 0) (cur.getD (3 * k0 + 1) 0) f))
          else cur) := by
      simp only [smooth_body_go, smooth_grd]
      by_cases hg : 3 * k0 + 2 < cur.length ∧ 3 * k0 + 2 < prev.length
      · by_cases hc : 0 < cur.getD (3 * k0 + 2) 0 ∧ 0 < prev.getD (3 * k0 + 2) 0
        · rw [if_pos hg, if_pos hc, if_pos ⟨hg.1, hg.2, hc.1, hc.2⟩]
        · rw [if_pos hg, if_neg hc, if_neg (fun hh => hc ⟨hh.2.2.1, hh.2.2.2⟩)]
      · rw [if_neg hg, if_neg (fun hh => hg ⟨hh.1, hh.2.1⟩)]
    set cur1 := (if smooth_grd prev cur k0 then
        ((cur.set (3 * k0) (smooth_value (prev.getD (3 * k0) 0) (cur.getD (3 * k0) 0) f)).set
          (3 * k0 + 1) (smooth_value (prev.getD (3 * k0 + 1) 0) (cur.getD (3 * k0 + 1) 0) f))
      else cur) with hcur1
    have hlen1 : cur1.length = cur.length := by
      rw [hcur1]
      split_ifs <;> simp
    have hpres : ∀ m : Nat, m ≠ 3 * k0 → m ≠ 3 * k0 + 1 → cur1[m]? = cur[m]? := by
      intro m h1 h2
      rw [hcur1]
      split_ifs with hg
      · rw [List.getElem?_set_ne (fun he => h2 he.symm),
          List.getElem?_set_ne (fun he => h1 he.symm)]
      · rfl
    have hpresD : ∀ m : Nat, m ≠ 3 * k0 → m ≠ 3 * k0 + 1 →
        cur1.getD m 0 = cur.getD m 0 := by
      intro m h1 h2
      rw [hcur1]
      split_ifs with hg
      · rw [getD_set_ne _ _ _ _ (fun he => h2 he), getD_set_ne _ _ _ _ (fun he => h1 he)]
      · rfl
    have hgrd1 : ∀ j : Nat, j ≠ k0 → (smooth_grd prev cur1 j ↔ smooth_grd prev cur j) := by
      intro j hj
      unfold smooth_grd
      rw [hlen1, hpresD (3 * j + 2) (by omega) (by omega)]
    obtain ⟨ih1, ih2, ih3⟩ := ih hndr cur1
    rw [hstep]
    refine ⟨by rw [ih1, hlen1], ?_, ?_⟩
    · intro m hm
      have hmne : m ≠ 3 * k0 ∧ m ≠ 3 * k0 + 1 := by
        rcases hm with hm | hm
        · omega
        · refine ⟨fun he => hm ?_, fun he => hm ?_⟩
          · subst he
            have hq : (3 * k0) / 3 = k0 := by omega
            rw [hq]
            exact List.mem_cons_self _ _
          · subst he
            have hq : (3 * k0 + 1) / 3 = k0 := by omega
            rw [hq]
            exact List.mem_cons_self _ _
      rw [ih2 m (by
        rcases hm with hm | hm
        · exact Or.inl hm
        · exact Or.inr (fun hr => hm (by simp [hr]))), hpres m hmne.1 hmne.2]
    · intro k hk
      rcases List.mem_cons.mp hk with rfl | hkr
      · have h3k : (3 * k) / 3 = k := by omega
        have h3k1 : (3 * k + 1) / 3 = k := by omega
        have e0 : (smooth_body_go prev f rest cur1)[3 * k]? = cur1[3 * k]? :=
          ih2 _ (Or.inr (by rw [h3k]; exact hk0r))
        have e1 : (smooth_body_go prev f rest cur1)[3 * k + 1]? = cur1[3 * k + 1]? :=
          ih2 _ (Or.inr (by rw [h3k1]; exact hk0r))
        constructor
        · intro hg
          rw [e0, e1, hcur1, if_pos hg]
          have hl0 : 3 * k < cur.length := by
            rcases hg with ⟨hg1, _, _, _⟩
            omega
          constructor
          · rw [List.getElem?_set_ne (by omega),
              List.getElem?_set_self (by simpa using hl0)]
          · rw [List.getElem?_set_self (by simp; rcases hg with ⟨hg1, _, _, _⟩; omega)]
        · intro hg
          rw [e0, e1, hcur1, if_neg hg]
          exact ⟨rfl, rfl⟩
      · have hjne : k ≠ k0 := fun he => hk0r (he ▸ hkr)
        obtain ⟨c1, c2⟩ := ih3 k hkr
        constructor
        · intro hg
          have hg1 : smooth_grd prev cur1 k := (hgrd1 k hjne).mpr hg
          obtain ⟨d0, d1⟩ := c1 hg1
          rw [d0, d1, hpresD (3 * k) (by omega) (by omega),
            hpresD (3 * k + 1) (by omega) (by omega)]
          exact ⟨rfl, rfl⟩
        · intro hg
          have hg1 : ¬smooth_grd prev cur1 k := fun hh => hg ((hgrd1 k hjne).mp hh)
          obtain ⟨d0, d1⟩ := c2 hg1
          rw [d0, d1, hpres (3 * k) (by omega) (by omega),
            hpres (3 * k + 1) (by omega) (by omega)]
          exact ⟨rfl, rfl⟩

theorem getD_congr (l l' : List ℚ) (m : Nat) (h : l[m]? = l'[m]?) :
    l.getD m 0 = l'.getD m 0 := by
  rw [List.getD_eq_getElem?_getD, List.getD_eq_getElem?_getD, h]

theorem smooth_kp_field_pose (getf : Person → Option (List ℚ))
    (setf : Person → List ℚ → Person) (cur prev : Person) (f : ℚ)
    (hset : ∀ q l, (setf q l).pose_keypoints_2d = q.pose_keypoints_2d) :
    (smooth_kp_field getf setf cur prev f).pose_keypoints_2d =
      cur.pose_keypoints_2d := by
  unfold smooth_kp_field
  split
  · split_ifs
    · exact hset _ _
    · rfl
  · rfl

theorem smooth_hands_face_pose (p prev : Person) (f : ℚ) (sh sf : Bool) :
    (smooth_hands_face p prev f sh sf).pose_keypoints_2d = p.pose_keypoints_2d := by
  have hL : ∀ (q : Person), (smooth_kp_field (fun r => r.hand_left_keypoints_2d)
      (fun r l => { r with hand_left_keypoints_2d := some l }) q prev f).pose_keypoints_2d =
      q.pose_keypoints_2d :=
    fun q => smooth_kp_field_pose _ _ q prev f (fun r l => rfl)
  have hR : ∀ (q : Person), (smooth_kp_field (fun r => r.hand_right_keypoints_2d)
      (fun r l => { r with hand_right_keypoints_2d := some l }) q prev f).pose_keypoints_2d =
      q.pose_keypoints_2d :=
    fun q => smooth_kp_field_pose _ _ q prev f (fun r l => rfl)
  have hF : ∀ (q : Person), (smooth_kp_field (fun r => r.face_keypoints_2d)
      (fun r l => { r with face_keypoints_2d := some l }) q prev f).pose_keypoints_2d =
      q.pose_keypoints_2d :=
    fun q => smooth_kp_field_pose _ _ q prev f (fun r l => rfl)
  unfold smooth_hands_face
  split_ifs <;> simp only [hL, hR, hF]

theorem smooth_targeted_person_char (f : ℚ) (focus : Option Nat)
    (selIdxs : List Nat) (hnd : selIdxs.Nodup) (sh sf : Bool) (cp pp op : Person)
    (h : smooth_targeted_person f focus selIdxs sh sf cp pp = some op)
    (cb pb : List ℚ) (hcb : cp.pose_keypoints_2d = some cb)
    (hpb : pp.pose_keypoints_2d = some pb) (k : Nat) (hk : k ∈ selIdxs)
    (cc pc : ℚ) (hcc : cb[3 * k + 2]? = some cc) (hpc : pb[3 * k + 2]? = some pc) :
    ∃ ob, op.pose_keypoints_2d = some ob ∧ ob.length = cb.length ∧
      ob[3 * k + 2]? = some cc ∧
      (0 < cc → 0 < pc →
        ob[3 * k]? = some (smooth_value (pb.getD (3 * k) 0) (cb.getD (3 * k) 0) f) ∧
        ob[3 * k + 1]? = some (smooth_value (pb.getD (3 * k + 1) 0) (cb.getD (3 * k + 1) 0) f)) ∧
      ((cc ≤ 0 ∨ pc ≤ 0) →
        ob[3 * k]? = cb[3 * k]? ∧ ob[3 * k + 1]? = cb[3 * k + 1]?) := by
  have hcblen : 3 * k + 2 < cb.length := getElem?_some_of_lt hcc
  have hpblen : 3 * k + 2 < pb.length := getElem?_some_of_lt hpc
  have hcbne : cb ≠ [] := by
    intro he
    rw [he] at hcblen
    simp at hcblen
  have hpbne : pb ≠ [] := by
    intro he
    rw [he] at hpblen
    simp at hpblen
  have hcbD : cb.getD (3 * k + 2) 0 = cc := by
    rw [List.getD_eq_getElem?_getD, hcc]
    rfl
  have hpbD : pb.getD (3 * k + 2) 0 = pc := by
    rw [List.getD_eq_getElem?_getD, hpc]
    rfl
  have hgrd : smooth_grd pb cb k ↔ (0 < cc ∧ 0 < pc) := by
    unfold smooth_grd
    rw [hcbD, hpbD]
    constructor
    · rintro ⟨_, _, a, b⟩
      exact ⟨a, b⟩
    · rintro ⟨a, b⟩
      exact ⟨hcblen, hpblen, a, b⟩
  cases focus with
  | none =>
    simp only [smooth_targeted_person, smooth_person_independent, Option.some.injEq] at h
    rw [hcb, hpb] at h
    simp only [Option.getD_some] at h
    rw [if_pos ⟨hcbne, hpbne⟩] at h
    subst h
    obtain ⟨c1, c2, c3⟩ := smooth_body_go_char pb f selIdxs hnd cb
    refine ⟨smooth_body_go pb f selIdxs cb, ?_, c1, ?_, ?_, ?_⟩
    · rw [smooth_hands_face_pose]
    · rw [c2 _ (Or.inl (by omega)), hcc]
    · intro hc hp
      exact (c3 k hk).1 (hgrd.mpr ⟨hc, hp⟩)
    · intro hneg
      refine (c3 k hk).2 (fun hg => ?_)
      obtain ⟨a, b⟩ := hgrd.mp hg
      rcases hneg with hneg | hneg <;> linarith
  | some fp =>
    simp only [smooth_targeted_person, smooth_person_with_focus] at h
    rw [hcb, hpb] at h
    simp only [Option.getD_some] at h
    rw [if_neg (by
      rintro (he | he)
      · exact hcbne he
      · exact hpbne he)] at h
    split_ifs at h with hflen
    · simp only [Option.some.injEq] at h
      subst h
      obtain ⟨a1, a2, a3⟩ := smooth_body_go_char pb f [fp] (List.nodup_singleton fp) cb
      obtain ⟨b1, b2, b3⟩ := smooth_body_go_char pb f
        (selIdxs.filter (fun j => j ≠ fp)) (hnd.filter _)
        (smooth_body_go pb f [fp] cb)
      refine ⟨_, by rw [smooth_hands_face_pose], by rw [b1, a1], ?_, ?_, ?_⟩
      · rw [b2 _ (Or.inl (by omega)), a2 _ (Or.inl (by omega)), hcc]
      · intro hc hp
        by_cases hkf : k = fp
        · subst hkf
          have hnotin : (3 * k) / 3 ∉ selIdxs.filter (fun j => j ≠ k) := by
            intro hmem
            have hne := List.of_mem_filter hmem
            rw [decide_eq_true_eq] at hne
            exact hne (by omega)
          have hnotin1 : (3 * k + 1) / 3 ∉ selIdxs.filter (fun j => j ≠ k) := by
            intro hmem
            have hne := List.of_mem_filter hmem
            rw [decide_eq_true_eq] at hne
            exact hne (by omega)
          obtain ⟨d0, d1⟩ := (a3 k (by simp)).1 (hgrd.mpr ⟨hc, hp⟩)
          rw [b2 _ (Or.inr hnotin), b2 _ (Or.inr hnotin1), d0, d1]
          exact ⟨rfl, rfl⟩
        · have hpres0 : (smooth_body_go pb f [fp] cb)[3 * k]? = cb[3 * k]? :=
            a2 _ (Or.inr (by
              intro hmem
              simp at hmem
              omega))
          have hpres1 : (smooth_body_go pb f [fp] cb)[3 * k + 1]? = cb[3 * k + 1]? :=
            a2 _ (Or.inr (by
              intro hmem
              simp at hmem
              omega))
          have hpres2 : (smooth_body_go pb f [fp] cb)[3 * k + 2]? = cb[3 * k + 2]? :=
            a2 _ (Or.inl (by omega))
          have hkmem : k ∈ selIdxs.filter (fun j => j ≠ fp) :=
            List.mem_filter.mpr ⟨hk, by simp [hkf]⟩
          have hgrd2 : smooth_grd pb (smooth_body_go pb f [fp] cb) k := by
            unfold smooth_grd
            rw [a1, getD_congr _ _ _ hpres2, hcbD, hpbD]
            exact ⟨hcblen, hpblen, hc, hp⟩
          obtain ⟨d0, d1⟩ := (b3 k hkmem).1 hgrd2
          rw [d0, d1, getD_congr _ _ _ hpres0, getD_congr _ _ _ hpres1]
          exact ⟨rfl, rfl⟩
      · intro hneg
        by_cases hkf : k = fp
        · subst hkf
          have hnotin : (3 * k) / 3 ∉ selIdxs.filter (fun j => j ≠ k) := by
            intro hmem
            have hne := List.of_mem_filter hmem
            rw [decide_eq_true_eq] at hne
            exact hne (by omega)
          have hnotin1 : (3 * k + 1) / 3 ∉ selIdxs.filter (fun j => j ≠ k) := by
            intro hmem
            have hne := List.of_mem_filter hmem
            rw [decide_eq_true_eq] at hne
            exact hne (by omega)
          obtain ⟨d0, d1⟩ := (a3 k (by simp)).2 (fun hg => by
            obtain ⟨a, b⟩ := hgrd.mp hg
            rcases hneg with hneg | hneg <;> linarith)
          rw [b2 _ (Or.inr hnotin), b2 _ (Or.inr hnotin1), d0, d1]
          exact ⟨rfl, rfl⟩
        · have hpres0 : (smooth_body_go pb f [fp] cb)[3 * k]? = cb[3 * k]? :=
            a2 _ (Or.inr (by
              intro hmem
              simp at hmem
              omega))
          have hpres1 : (smooth_body_go pb f [fp] cb)[3 * k + 1]? = cb[3 * k + 1]? :=
            a2 _ (Or.inr (by
              intro hmem
              simp at hmem
              omega))
          have hpres2 : (smooth_body_go pb f [fp] cb)[3 * k + 2]? = cb[3 * k + 2]? :=
            a2 _ (Or.inl (by omega))
          have hkmem : k ∈ selIdxs.filter (fun j => j ≠ fp) :=
            List.mem_filter.mpr ⟨hk, by simp [hkf]⟩
          have hgrd2 : ¬smooth_grd pb (smooth_body_go pb f [fp] cb) k := by
            unfold smooth_grd
            rw [a1, getD_congr _ _ _ hpres2, hcbD, hpbD]
            rintro ⟨_, _, a, b⟩
            rcases hneg with hneg | hneg <;> linarith
          obtain ⟨d0, d1⟩ := (b3 k hkmem).2 hgrd2
          rw [d0, d1, hpres0, hpres1]
          exact ⟨rfl, rfl⟩

theorem smoother_body_indices_nodup (sel : Option Selection) :
    (smoother_body_indices sel).Nodup := by
  cases sel with
  | none => exact List.nodup_range 18
  | some s => exact s.body_indices.nodup_dedup

theorem smooth_people_go_char (g : Person → Person → Option Person)
    (prevPpl : List Person) (idxs : List Int) (cur out : List Person)
    (hpos : ∀ i ∈ idxs, 0 ≤ i) (hnd : idxs.Nodup)
    (h : smooth_people_go g prevPpl cur idxs = some out) :
    out.length = cur.length ∧
    (∀ n : Nat, (n : Int) ∉ idxs → out[n]? = cur[n]?) ∧
    (∀ n : Nat, (n : Int) ∈ idxs → n < cur.length → n < prevPpl.length →
      ∃ cp pp op, cur[n]? = some cp ∧ prevPpl[n]? = some pp ∧
        g cp pp = some op ∧ out[n]? = some op) := by
  induction idxs generalizing cur out with
  | nil =>
    simp only [smooth_people_go, Option.some.injEq] at h
    subst h
    refine ⟨rfl, fun _ _ => rfl, fun n hn => absurd hn (by simp)⟩
  | cons i rest ih =>
    have hi0 : 0 ≤ i := hpos i (by simp)
    have hposr : ∀ j ∈ rest, 0 ≤ j := fun j hj => hpos j (by simp [hj])
    have hndr : rest.Nodup := hnd.of_cons
    have hinr : i ∉ rest := (List.nodup_cons.mp hnd).1
    simp only [smooth_people_go] at h
    split_ifs at h with hle
    · obtain ⟨h1, h2, h3⟩ := ih cur out hposr hndr h
      refine ⟨h1, ?_, ?_⟩
      · intro n hn
        exact h2 n (fun hr => hn (by simp [hr]))
      · intro n hn hlt1 hlt2
        rcases List.mem_cons.mp hn with he | hr
        · exfalso
          rw [← he] at hle
          rcases hle with hle | hle <;> omega
        · exact h3 n hr hlt1 hlt2
    · push_neg at hle
      obtain ⟨hle1, hle2⟩ := hle
      have hres1 : pyResolveIdx cur.length i = some i.toNat := by
        simp only [pyResolveIdx, if_pos hi0]
        rw [if_pos hle1]
      have hres2 : pyResolveIdx prevPpl.length i = some i.toNat := by
        simp only [pyResolveIdx, if_pos hi0]
        rw [if_pos hle2]
      simp only [hres1, hres2] at h
      have htlt1 : i.toNat < cur.length := by omega
      have htlt2 : i.toNat < prevPpl.length := by omega
      rcases hgc : cur[i.toNat]? with _ | cp
      · simp only [hgc] at h
        exact Option.noConfusion h
      rcases hgp : prevPpl[i.toNat]? with _ | pp
      · simp only [hgc, hgp] at h
        exact Option.noConfusion h
      simp only [hgc, hgp] at h
      rcases hg : g cp pp with _ | cp1
      · simp only [hg] at h
        exact Option.noConfusion h
      simp only [hg] at h
      obtain ⟨h1, h2, h3⟩ := ih _ out hposr hndr h
      rw [List.length_set] at h1
      have hcast : ((i.toNat : Int)) = i := Int.toNat_of_nonneg hi0
      refine ⟨h1, ?_, ?_⟩
      · intro n hn
        have hnr : (n : Int) ∉ rest := fun hr => hn (by simp [hr])
        have hni : n ≠ i.toNat := by
          intro he
          exact hn (by simp [he, hcast])
        rw [h2 n hnr, List.getElem?_set_ne (fun he => hni he.symm)]
      · intro n hn hlt1 hlt2
        rcases List.mem_cons.mp hn with he | hr
        · have hni : n = i.toNat := by omega
          subst hni
          refine ⟨cp, pp, cp1, hgc, hgp, hg, ?_⟩
          have hnr : ((i.toNat : Int)) ∉ rest := by rw [hcast]; exact hinr
          rw [h2 _ hnr, List.getElem?_set_self htlt1]
        · have hni : n ≠ i.toNat := by
            intro he
            subst he
            rw [hcast] at hr
            exact hinr hr
          obtain ⟨cp', pp', op', hgc', hgp', hg', ho'⟩ :=
            h3 n hr (by simpa using hlt1) hlt2
          rw [List.getElem?_set_ne (fun he => hni he.symm)] at hgc'
          exact ⟨cp', pp', op', hgc', hgp', hg', ho'⟩

theorem smooth_step_char (f : ℚ) (focus : Option Nat) (selIdxs : List Nat)
    (pI : Int) (sh sf : Bool) (pf cf ofr : Frame) (hpI : -1 ≤ pI)
    (h : smooth_step f focus selIdxs pI sh sf pf cf = some ofr)
    (pppl cppl : List Person) (hpf : pf.people = some pppl)
    (hcf : cf.people = some cppl) (n : Nat) (hn : pI = -1 ∨ pI = (n : Int))
    (cp pp : Person) (hcp : cppl[n]? = some cp) (hpp : pppl[n]? = some pp) :
    ∃ oppl op, ofr.people = some oppl ∧ oppl[n]? = some op ∧
      smooth_targeted_person f focus selIdxs sh sf cp pp = some op := by
  unfold smooth_step at h
  rw [hpf, hcf] at h
  rcases hsp : smooth_people_go (smooth_targeted_person f focus selIdxs sh sf)
      pppl cppl (peopleToEdit cppl.length pI) with _ | cppl1
  · simp only [hsp] at h
    exact Option.noConfusion h
  simp only [hsp, Option.some.injEq] at h
  subst h
  have hlt1 : n < cppl.length := getElem?_some_of_lt hcp
  have hlt2 : n < pppl.length := getElem?_some_of_lt hpp
  have hmem : (n : Int) ∈ peopleToEdit cppl.length pI := by
    rw [mem_peopleToEdit]
    rcases hn with hn | hn
    · exact Or.inl ⟨hn, hlt1⟩
    · exact Or.inr hn.symm
  obtain ⟨_, _, h3⟩ := smooth_people_go_char _ pppl _ cppl cppl1
    (peopleToEdit_nonneg _ pI hpI) (peopleToEdit_nodup _ pI) hsp
  obtain ⟨cp', pp', op, hgc', hgp', hg', ho'⟩ := h3 n hmem hlt1 hlt2
  rw [hcp] at hgc'
  rw [hpp] at hgp'
  obtain rfl : cp = cp' := Option.some.injEq _ _ ▸ hgc'
  obtain rfl : pp = pp' := Option.some.injEq _ _ ▸ hgp'
  exact ⟨cppl1, op, rfl, ho', hg'⟩

theorem smooth_frames_char (f : ℚ) (focus : Option Nat) (selIdxs : List Nat)
    (pI : Int) (sh sf : Bool) :
    ∀ (prev : Frame) (rest out : List Frame),
      smooth_frames f focus selIdxs pI sh sf prev rest = some out →
      out.length = rest.length ∧
      (∀ cf ofr, rest[0]? = some cf → out[0]? = some ofr →
        smooth_step f focus selIdxs pI sh sf prev cf = some ofr) ∧
      (∀ (i : Nat) (pf cf ofr : Frame), out[i]? = some pf → rest[i + 1]? = some cf →
        out[i + 1]? = some ofr → smooth_step f focus selIdxs pI sh sf pf cf = some ofr) := by
  intro prev rest
  induction rest generalizing prev with
  | nil =>
    intro out h
    simp only [smooth_frames, Option.some.injEq] at h
    subst h
    refine ⟨rfl, ?_, ?_⟩
    · intro cf ofr hcf
      simp at hcf
    · intro i pf cf ofr hpf hcf
      simp at hpf
  | cons cf0 rest1 ih =>
    intro out h
    simp only [smooth_frames] at h
    rcases hs : smooth_step f focus selIdxs pI sh sf prev cf0 with _ | o0
    · simp only [hs] at h
      exact Option.noConfusion h
    simp only [hs] at h
    rcases hr : smooth_frames f focus selIdxs pI sh sf o0 rest1 with _ | out1
    · simp only [hr] at h
      exact Option.noConfusion h
    simp only [hr, Option.some.injEq] at h
    subst h
    obtain ⟨h1, h2, h3⟩ := ih o0 out1 hr
    refine ⟨by simp [h1], ?_, ?_⟩
    · intro cf ofr hcf hof
      simp only [List.getElem?_cons_zero, Option.some.injEq] at hcf hof
      subst hcf
      subst hof
      exact hs
    · intro i pf cf ofr hpf hcf hof
      cases i with
      | zero =>
        simp only [List.getElem?_cons_zero, List.getElem?_cons_succ,
          Option.some.injEq] at hpf hcf hof
        subst hpf
        exact h2 cf ofr hcf hof
      | succ i1 =>
        simp only [List.getElem?_cons_succ] at hpf hcf hof
        exact h3 i1 pf cf ofr hpf hcf hof

/-- **C4.**  For a sequence of more than one frame, `smooth_pose` copies
frame 0 unmodified; every later output frame is derived from the previous
OUTPUT frame: for each targeted person and each selected body keypoint
whose confidence is positive in both the previous output frame and the
current input frame, the output coordinate is
`previous_output + factor * (current_input - previous_output)` with the
confidence taken unchanged from the current input frame, and a keypoint
whose confidence is not positive in either frame keeps the current input
frame's raw coordinates. -/
theorem smooth_pose_recurrence (seq : List Frame) (f : ℚ) (sel : Option Selection)
    (focus : Option Nat) (pI : Int) (sh sf : Bool) (out : List Frame)
    (hpI : -1 ≤ pI) (hlen : 1 < seq.length)
    (h : smooth_pose seq f sel focus pI sh sf = some out) :
    out[0]? = seq[0]? ∧
    ∀ (i : Nat) (pf cf ofr : Frame), 1 ≤ i → out[i - 1]? = some pf →
      seq[i]? = some cf → out[i]? = some ofr →
      ∀ (pppl cppl : List Person), pf.people = some pppl → cf.people = some cppl →
      ∀ (n : Nat) (cp pp : Person), (pI = -1 ∨ pI = (n : Int)) →
        cppl[n]? = some cp → pppl[n]? = some pp →
      ∃ oppl op, ofr.people = some oppl ∧ oppl[n]? = some op ∧
      ∀ (k : Nat), k ∈ smoother_body_indices sel →
        ∀ (cb pb : List ℚ), cp.pose_keypoints_2d = some cb →
          pp.pose_keypoints_2d = some pb →
        ∀ (cc pc : ℚ), cb[3 * k + 2]? = some cc → pb[3 * k + 2]? = some pc →
        ∃ ob, op.pose_keypoints_2d = some ob ∧ ob.length = cb.length ∧
          ob[3 * k + 2]? = some cc ∧
          (0 < cc → 0 < pc →
            ob[3 * k]? = some (smooth_value (pb.getD (3 * k) 0) (cb.getD (3 * k) 0) f) ∧
            ob[3 * k + 1]? =
              some (smooth_value (pb.getD (3 * k + 1) 0) (cb.getD (3 * k + 1) 0) f)) ∧
          ((cc ≤ 0 ∨ pc ≤ 0) →
            ob[3 * k]? = cb[3 * k]? ∧ ob[3 * k + 1]? = cb[3 * k + 1]?) := by
  unfold smooth_pose at h
  rw [if_neg (by omega)] at h
  rcases hseq : seq with _ | ⟨f0, rest⟩
  · rw [hseq] at hlen
    simp at hlen
  rw [hseq] at h
  rcases hf : smooth_frames f focus (smoother_body_indices sel) pI
      (smoother_do_hands sel sh) (smoother_do_face sel sf) f0 rest with _ | out1
  · simp only [hf] at h
    exact Option.noConfusion h
  simp only [hf, Option.some.injEq] at h
  subst h
  obtain ⟨c1, c2, c3⟩ := smooth_frames_char f focus (smoother_body_indices sel) pI
    (smoother_do_hands sel sh) (smoother_do_face sel sf) f0 rest out1 hf
  refine ⟨by simp, ?_⟩
  intro i pf cf ofr hi hpfr hcfr hofr pppl cppl hpf hcf n cp pp hn hcp hpp
  have hstep : smooth_step f focus (smoother_body_indices sel) pI
      (smoother_do_hands sel sh) (smoother_do_face sel sf) pf cf = some ofr := by
    rcases hi1 : i with _ | i1
    · omega
    subst hi1
    rcases hi2 : i1 with _ | i2
    · subst hi2
      simp only [Nat.add_sub_cancel, List.getElem?_cons_zero, Option.some.injEq] at hpfr
      subst hpfr
      simp only [List.getElem?_cons_succ] at hcfr hofr
      exact c2 cf ofr hcfr hofr
    · subst hi2
      simp only [Nat.add_sub_cancel, List.getElem?_cons_succ] at hpfr hcfr hofr
      exact c3 i2 pf cf ofr hpfr hcfr hofr
  obtain ⟨oppl, op, hop1, hop2, hop3⟩ := smooth_step_char f focus
    (smoother_body_indices sel) pI (smoother_do_hands sel sh)
    (smoother_do_face sel sf) pf cf ofr hpI hstep pppl cppl hpf hcf n hn cp pp hcp hpp
  refine ⟨oppl, op, hop1, hop2, ?_⟩
  intro k hk cb pb hcb hpb cc pc hcc hpc
  exact smooth_targeted_person_char f focus (smoother_body_indices sel)
    (smoother_body_indices_nodup sel) (smoother_do_hands sel sh)
    (smoother_do_face sel sf) cp pp op hop3 cb pb hcb hpb k hk cc pc hcc hpc

/-- Concrete smoothing witness data, from the spec's convergence example:
one keypoint at x-value 0 then 1, factor `1/5`. -/
def smWitIn0 : Frame := frameWithPeople [⟨some [0, 0, 1], none, none, none⟩]

def smWitIn1 : Frame := frameWithPeople [⟨some [1, 0, 1], none, none, none⟩]

def smWitOut1 : Frame := frameWithPeople [⟨some [1/5, 0, 1], none, none, none⟩]

/-- The witness selection: body index 0 only, no hands/face. -/
def smWitSel : Selection := ⟨[0], false, false, false⟩

theorem smooth_wit_eval :
    smooth_pose [smWitIn0, smWitIn1] (1/5) (some smWitSel) none (-1) false false =
      some [smWitIn0, smWitOut1] := by
  norm_num [smooth_pose, smooth_frames, smooth_step, smoother_body_indices,
    smoother_do_hands, smoother_do_face, smooth_people_go, peopleToEdit,
    pyResolveIdx, smooth_targeted_person, smooth_person_independent,
    smooth_hands_face, smooth_kp_field, smooth_body_go, smooth_value, smooth_grd,
    List.range, List.range.loop, List.dedup, List.pwFilter, smWitSel,
    smWitIn0, smWitIn1, smWitOut1, frameWithPeople]
  exact ⟨by simp, by simp⟩

/-- Witness for `smooth_pose_recurrence` at the spec's convergence example:
frame 1's smoothed x-value is `0 + (1/5) * (1 - 0)`. -/
theorem smooth_pose_recurrence_witness :
    ∃ oppl op, smWitOut1.people = some oppl ∧ oppl[0]? = some op ∧
      ∃ ob, op.pose_keypoints_2d = some ob ∧ ob.length = 3 ∧
        ob[2]? = some 1 ∧ ob[0]? = some (smooth_value 0 1 (1/5)) := by
  obtain ⟨h0, hrec⟩ := smooth_pose_recurrence [smWitIn0, smWitIn1] (1/5)
    (some smWitSel) none (-1) false false [smWitIn0, smWitOut1] (by decide)
    (by decide) smooth_wit_eval
  obtain ⟨oppl, op, ho1, ho2, ho3⟩ := hrec 1 smWitIn0 smWitIn1 smWitOut1
    (by decide) rfl rfl rfl [⟨some [0, 0, 1], none, none, none⟩]
    [⟨some [1, 0, 1], none, none, none⟩] rfl rfl 0
    ⟨some [1, 0, 1], none, none, none⟩ ⟨some [0, 0, 1], none, none, none⟩
    (Or.inl rfl) rfl rfl
  obtain ⟨ob, hb1, hb2, hb3, hb4, _⟩ := ho3 0 (by decide) [1, 0, 1] [0, 0, 1]
    rfl rfl 1 1 rfl rfl
  obtain ⟨hx, _⟩ := hb4 (by norm_num) (by norm_num)
  exact ⟨oppl, op, ho1, ho2, ob, hb1, hb2, hb3, hx⟩
